import Mathlib

/-!  Verification development for the lossless image codec of this repository.

The definitions below are a shallow embedding of `src/compress.py`
(arithmetic coder, adaptive frequency model, LOCO-I predictor,
compress/decompress drivers) together with the persistence helpers
`CompressionWidget._bits_to_bytes` (src/compress_ui.py) and the
bit-unpacking loop of `MainWindow.openCompressedFile` (src/main.py).

Python's mutable objects are embedded as immutable structures with
explicit state passing; Python's unbounded `while` loops are embedded as
fuel-based recursions, with the fuel chosen provably large enough that
under the reachable-state invariants the loop always exits through its
`break`/guard before the fuel runs out (lemmas `encRenorm_done`,
`decRenorm_done`, `gsfvLoop_fuel` below establish this).  Python integers
are `Nat`/`Int`; `//` on nonnegative values is `Nat` division and on
possibly-negative values is `Int.fdiv` (floor division, as in Python).
-/

namespace Codec

/-- `CODE_BITS = 32` (src/compress.py line 12). -/
def CODE_BITS : Nat := 32

/-- `FULL_RANGE = 1 << CODE_BITS` (line 13). -/
def FULL_RANGE : Nat := 2 ^ CODE_BITS

/-- `HALF = FULL_RANGE >> 1` (line 14). -/
def HALF : Nat := FULL_RANGE / 2

/-- `FIRST_QTR = HALF >> 1` (line 15). -/
def FIRST_QTR : Nat := HALF / 2

/-- `THIRD_QTR = FIRST_QTR * 3` (line 16). -/
def THIRD_QTR : Nat := FIRST_QTR * 3

/-- Fuel for the renormalization loops.  Each loop iteration doubles the
interval width `high - low + 1`, and every iteration requires the width to
be at most `HALF = 2^31`, so no run of the loop can take more than 32
iterations; 64 units of fuel are therefore never exhausted (see
`encRenorm_done`). -/
def RENORM_FUEL : Nat := 64

/-- State of the adaptive frequency model (`class FrequencyTable`,
src/compress.py lines 23-99).  `cum = none` models `self.cum is None`
(the dirty flag). -/
structure FrequencyTable where
  symbol_count : Nat
  freq : List Nat
  cum : Option (List Nat)
  total : Nat

/-- `FrequencyTable.__init__` (lines 31-35). -/
def FrequencyTable.mk0 (symbol_count : Nat) : FrequencyTable :=
  { symbol_count := symbol_count
    freq := List.replicate symbol_count 1
    cum := none
    total := symbol_count }

/-- `FrequencyTable._rebuild_cumulative` (lines 37-45): the loop computes
exactly the prefix sums `cum[i] = sum of freq[0..i)` for `i = 0..n`, and sets
`total` to the full sum; `List.scanl (·+·) 0` is that table. -/
def FrequencyTable.rebuild_cumulative (t : FrequencyTable) : FrequencyTable :=
  { t with cum := some (List.scanl (· + ·) 0 t.freq), total := t.freq.sum }

/-- `FrequencyTable._ensure_cum` (lines 47-49). -/
def FrequencyTable.ensure_cum (t : FrequencyTable) : FrequencyTable :=
  match t.cum with
  | none => t.rebuild_cumulative
  | some _ => t

/-- Index into the (built) cumulative table: `self.cum[i]`. -/
def FrequencyTable.cumAt (t : FrequencyTable) (i : Nat) : Nat :=
  (t.cum.getD []).getD i 0

/-- `FrequencyTable.get_total` (lines 53-55); returns the value together
with the possibly-rebuilt table (Python mutates in place). -/
def FrequencyTable.get_total (t : FrequencyTable) : Nat × FrequencyTable :=
  let t' := t.ensure_cum
  (t'.total, t')

/-- `FrequencyTable.get_low_high` (lines 57-64). -/
def FrequencyTable.get_low_high (t : FrequencyTable) (symbol : Nat) :
    (Nat × Nat) × FrequencyTable :=
  let t' := t.ensure_cum
  ((t'.cumAt symbol, t'.cumAt (symbol + 1)), t')

/-- The `while lo + 1 < hi` binary-search loop of
`FrequencyTable.get_symbol_for_value` (lines 73-80), with fuel.  Each
iteration strictly shrinks `hi - lo`, so `symbol_count` units of fuel are
never exhausted (`gsfvLoop_fuel`). -/
def gsfvLoop (c : List Nat) (value : Int) : Nat → Nat → Nat → Nat
  | 0, lo, _ => lo
  | fuel + 1, lo, hi =>
    if lo + 1 < hi then
      let mid := (lo + hi) / 2
      if (c.getD mid 0 : Int) > value then gsfvLoop c value fuel lo mid
      else gsfvLoop c value fuel mid hi
    else lo

/-- `FrequencyTable.get_symbol_for_value` (lines 66-80). -/
def FrequencyTable.get_symbol_for_value (t : FrequencyTable) (value : Int) :
    Nat × FrequencyTable :=
  let t' := t.ensure_cum
  (gsfvLoop (t'.cum.getD []) value t'.symbol_count 0 t'.symbol_count, t')

/-- `FrequencyTable.increment` (lines 82-99).  Note that `total` is left
untouched (only `_rebuild_cumulative` updates it) and `cum` is marked
dirty. -/
def FrequencyTable.increment (t : FrequencyTable) (symbol : Nat) : FrequencyTable :=
  let f1 := t.freq.set symbol (t.freq.getD symbol 0 + 1)
  let f2 :=
    if f1.getD symbol 0 > 1000000 then
      f1.map (fun f => let g := (f + 1) / 2; if g < 1 then 1 else g)
    else f1
  { t with freq := f2, cum := none }

/-- Encoder state (`class ArithmeticEncoder`, lines 106-160). -/
structure ArithmeticEncoder where
  low : Nat
  high : Nat
  pending : Nat
  output_bits : List Nat

/-- `ArithmeticEncoder.__init__` (lines 107-111). -/
def ArithmeticEncoder.init : ArithmeticEncoder :=
  { low := 0, high := FULL_RANGE - 1, pending := 0, output_bits := [] }

/-- `ArithmeticEncoder._output_bit` (lines 113-118): append `bit`, then
`pending` copies of `1 - bit`, and reset `pending`. -/
def ArithmeticEncoder.output_bit (e : ArithmeticEncoder) (bit : Nat) : ArithmeticEncoder :=
  { e with output_bits := e.output_bits ++ bit :: List.replicate e.pending (1 - bit)
           pending := 0 }

/-- The E1/E2/E3 renormalization loop of `encode_symbol` (lines 129-147),
with fuel (see `RENORM_FUEL`). -/
def encRenorm : Nat → ArithmeticEncoder → ArithmeticEncoder
  | 0, e => e
  | fuel + 1, e =>
    if e.high < HALF then
      encRenorm fuel { e.output_bit 0 with low := e.low * 2, high := e.high * 2 + 1 }
    else if HALF ≤ e.low then
      encRenorm fuel { e.output_bit 1 with low := (e.low - HALF) * 2
                                           high := (e.high - HALF) * 2 + 1 }
    else if FIRST_QTR ≤ e.low ∧ e.high < THIRD_QTR then
      encRenorm fuel { e with pending := e.pending + 1
                              low := (e.low - FIRST_QTR) * 2
                              high := (e.high - FIRST_QTR) * 2 + 1 }
    else e

/-- `ArithmeticEncoder.encode_symbol` (lines 120-149). -/
def ArithmeticEncoder.encode_symbol (e : ArithmeticEncoder) (model : FrequencyTable)
    (symbol : Nat) : ArithmeticEncoder × FrequencyTable :=
  let (total, m1) := model.get_total
  let ((sym_low, sym_high), m2) := m1.get_low_high symbol
  let range := e.high - e.low + 1
  let e1 := { e with high := e.low + range * sym_high / total - 1
                     low := e.low + range * sym_low / total }
  (encRenorm RENORM_FUEL e1, m2.increment symbol)

/-- `ArithmeticEncoder.finish` (lines 151-160). -/
def ArithmeticEncoder.finish (e : ArithmeticEncoder) : List Nat :=
  let e1 := { e with pending := e.pending + 1 }
  (if e1.low < FIRST_QTR then e1.output_bit 0 else e1.output_bit 1).output_bits

/-- Decoder state (`class ArithmeticDecoder`, lines 167-222).  `code` is an
`Int`: on a garbage bitstream the E2/E3 folds can drive it negative. -/
structure ArithmeticDecoder where
  bitstream : List Nat
  pos : Nat
  low : Nat
  high : Nat
  code : Int

/-- `ArithmeticDecoder._read_bit` (lines 179-185): zero past end of
stream, and `pos` is not advanced in that case. -/
def ArithmeticDecoder.read_bit (d : ArithmeticDecoder) : Nat × ArithmeticDecoder :=
  if d.bitstream.length ≤ d.pos then (0, d)
  else (d.bitstream.getD d.pos 0, { d with pos := d.pos + 1 })

/-- One iteration of the `__init__` loop (lines 176-177):
`code = (code << 1) | read_bit()`.  For bit values (`b ≤ 1`) the bitwise
or on the even number `code << 1` is exactly `code * 2 + b`. -/
def decInitStep (d : ArithmeticDecoder) : ArithmeticDecoder :=
  let (b, d1) := d.read_bit
  { d1 with code := d1.code * 2 + b }

/-- `ArithmeticDecoder.__init__` (lines 168-177). -/
def ArithmeticDecoder.start (bitstream : List Nat) : ArithmeticDecoder :=
  (List.range CODE_BITS).foldl (fun d _ => decInitStep d)
    { bitstream := bitstream, pos := 0, low := 0, high := FULL_RANGE - 1, code := 0 }

/-- The E1/E2/E3 renormalization loop of `decode_symbol` (lines 201-219),
with fuel; each case reads one bit into the low end of `code`. -/
def decRenorm : Nat → ArithmeticDecoder → ArithmeticDecoder
  | 0, d => d
  | fuel + 1, d =>
    if d.high < HALF then
      let (b, d1) := d.read_bit
      decRenorm fuel { d1 with low := d.low * 2, high := d.high * 2 + 1
                               code := d.code * 2 + b }
    else if HALF ≤ d.low then
      let (b, d1) := d.read_bit
      decRenorm fuel { d1 with low := (d.low - HALF) * 2
                               high := (d.high - HALF) * 2 + 1
                               code := (d.code - (HALF : Int)) * 2 + b }
    else if FIRST_QTR ≤ d.low ∧ d.high < THIRD_QTR then
      let (b, d1) := d.read_bit
      decRenorm fuel { d1 with low := (d.low - FIRST_QTR) * 2
                               high := (d.high - FIRST_QTR) * 2 + 1
                               code := (d.code - (FIRST_QTR : Int)) * 2 + b }
    else d

/-- `ArithmeticDecoder.decode_symbol` (lines 187-222).  `value` uses
Python's floor division `//` (`Int.fdiv`): on a garbage stream
`code - low + 1` can be negative. -/
def ArithmeticDecoder.decode_symbol (d : ArithmeticDecoder) (model : FrequencyTable) :
    (Nat × ArithmeticDecoder) × FrequencyTable :=
  let (total, m1) := model.get_total
  let range := d.high - d.low + 1
  let value : Int := ((d.code - (d.low : Int) + 1) * (total : Int) - 1).fdiv (range : Int)
  let (symbol, m2) := m1.get_symbol_for_value value
  let ((sym_low, sym_high), m3) := m2.get_low_high symbol
  let d1 := { d with high := d.low + range * sym_high / total - 1
                     low := d.low + range * sym_low / total }
  ((symbol, decRenorm RENORM_FUEL d1), m3.increment symbol)

/-- The symbol returned by `decode_symbol` (a name for the first
component, convenient for stating lemmas). -/
def decSymbolOf (d : ArithmeticDecoder) (m : FrequencyTable) : Nat :=
  (d.decode_symbol m).1.1

/-! ## Predictor and drivers (src/compress.py lines 226-316) -/

/-- A pixel: an `(r, g, b)` triple of Python ints. -/
def Pixel : Type := Int × Int × Int

instance : DecidableEq Pixel := by unfold Pixel; infer_instance

instance : Inhabited Pixel := ⟨((0 : Int), (0 : Int), (0 : Int))⟩

/-- `grid[y][x]` for the in-range accesses performed by the drivers. -/
def getPx (grid : List (List Pixel)) (y x : Nat) : Pixel :=
  (grid.getD y []).getD x ((0 : Int), (0 : Int), (0 : Int))

/-- `grid[y][x] = v` for the in-range writes performed by the drivers. -/
def setPx (grid : List (List Pixel)) (y x : Nat) (v : Pixel) : List (List Pixel) :=
  grid.set y ((grid.getD y []).set x v)

/-- The per-channel body of `loco_predictor`'s interior case (lines
242-247): `p = l + t - tl; p = max(min(p, max(l, t)), min(l, t))`. -/
def medpred (l t tl : Int) : Int :=
  max (min (l + t - tl) (max l t)) (min l t)

/-- `loco_predictor` (lines 226-248). -/
def loco_predictor (x y : Nat) (grid : List (List Pixel)) : Pixel :=
  if x = 0 ∧ y = 0 then ((0 : Int), (0 : Int), (0 : Int))
  else if x = 0 then getPx grid (y - 1) x
  else if y = 0 then getPx grid y (x - 1)
  else
    let L := getPx grid y (x - 1)
    let T := getPx grid (y - 1) x
    let TL := getPx grid (y - 1) (x - 1)
    (medpred L.1 T.1 TL.1, medpred L.2.1 T.2.1 TL.2.1, medpred L.2.2 T.2.2 TL.2.2)

/-- `MAX_RESIDUAL = 510` (line 254). -/
def MAX_RESIDUAL : Nat := 510

/-- `SYMBOL_COUNT = MAX_RESIDUAL + 1` (line 255). -/
def SYMBOL_COUNT : Nat := MAX_RESIDUAL + 1

/-- The defensive clamp `max(0, min(MAX_RESIDUAL, d))` of lines 280-282,
returning the symbol fed to the encoder (a nonnegative int). -/
def clampResidual (d : Int) : Nat :=
  (max 0 (min (MAX_RESIDUAL : Int) d)).toNat

/-- The raster scan order `for y in range(H): for x in range(W)`. -/
def pixelIndices (H W : Nat) : List (Nat × Nat) :=
  (List.range H).flatMap (fun y => (List.range W).map (fun x => (y, x)))

/-- Joint state of the `compress_image` loop: encoder, model and the
causal buffer `pred_grid`. -/
structure EncPass where
  enc : ArithmeticEncoder
  model : FrequencyTable
  pred : List (List Pixel)

/-- The body of the `compress_image` double loop (lines 269-288) for one
pixel. -/
def encodePixel (pixelmap : List (List Pixel)) (st : EncPass) (yx : Nat × Nat) : EncPass :=
  let y := yx.1
  let x := yx.2
  let p := loco_predictor x y st.pred
  let a := getPx pixelmap y x
  let dr := clampResidual (a.1 - p.1 + 255)
  let dg := clampResidual (a.2.1 - p.2.1 + 255)
  let db := clampResidual (a.2.2 - p.2.2 + 255)
  let (e1, m1) := st.enc.encode_symbol st.model dr
  let (e2, m2) := e1.encode_symbol m1 dg
  let (e3, m3) := e2.encode_symbol m2 db
  { enc := e3, model := m3, pred := setPx st.pred y x a }

/-- The whole `compress_image` loop state after scanning all pixels,
starting from a fresh encoder, a fresh model and an all-zero `pred_grid`
(lines 263-288).  `W` is `len(pixelmap[0])`. -/
def compressRun (pixelmap : List (List Pixel)) (W : Nat) : EncPass :=
  (pixelIndices pixelmap.length W).foldl (encodePixel pixelmap)
    { enc := ArithmeticEncoder.init
      model := FrequencyTable.mk0 SYMBOL_COUNT
      pred := List.replicate pixelmap.length (List.replicate W ((0:Int),(0:Int),(0:Int))) }

/-- `compress_image` (lines 258-290).  `W = len(pixelmap[0])` raises
`IndexError` on an empty pixel map (height 0), which the embedding
returns as `none`. -/
def compress_image (pixelmap : List (List Pixel)) : Option (List Nat) :=
  match pixelmap with
  | [] => none
  | row0 :: _ => some ((compressRun pixelmap row0.length).enc.finish)

/-- Joint state of the `decompress_image` loop: decoder, model and the
reconstruction grid. -/
structure DecPass where
  dec : ArithmeticDecoder
  model : FrequencyTable
  grid : List (List Pixel)

/-- The body of the `decompress_image` double loop (lines 300-314) for one
pixel. -/
def decodePixel (st : DecPass) (yx : Nat × Nat) : DecPass :=
  let y := yx.1
  let x := yx.2
  let p := loco_predictor x y st.grid
  let ((dr, d1), m1) := st.dec.decode_symbol st.model
  let ((dg, d2), m2) := d1.decode_symbol m1
  let ((db, d3), m3) := d2.decode_symbol m2
  let r := ((dr : Int) - 255) + p.1
  let g := ((dg : Int) - 255) + p.2.1
  let b := ((db : Int) - 255) + p.2.2
  { dec := d3, model := m3, grid := setPx st.grid y x (r, g, b) }

/-- The whole `decompress_image` loop state after scanning all pixels
(lines 295-314). -/
def decompressRun (bitstream : List Nat) (width height : Nat) : DecPass :=
  (pixelIndices height width).foldl decodePixel
    { dec := ArithmeticDecoder.start bitstream
      model := FrequencyTable.mk0 SYMBOL_COUNT
      grid := List.replicate height (List.replicate width ((0:Int),(0:Int),(0:Int))) }

/-- `decompress_image` (lines 293-316). -/
def decompress_image (bitstream : List Nat) (width height : Nat) : List (List Pixel) :=
  (decompressRun bitstream width height).grid

/-! ## Persistence layer (src/compress_ui.py, src/main.py) -/

/-- The accumulator loop of `CompressionWidget._bits_to_bytes`
(src/compress_ui.py lines 209-224): `out`, `byte`, `count` are the three
locals; the final partial byte is left-shifted into the high bits. -/
def b2bAux (out : List Nat) (byte count : Nat) : List Nat → List Nat
  | [] => if count > 0 then out ++ [byte <<< (8 - count)] else out
  | b :: rest =>
    let byte2 := (byte <<< 1) ||| b
    let count2 := count + 1
    if count2 = 8 then b2bAux (out ++ [byte2]) 0 0 rest
    else b2bAux out byte2 count2 rest

/-- `CompressionWidget._bits_to_bytes` (src/compress_ui.py lines 209-224). -/
def bits_to_bytes (bits : List Nat) : List Nat :=
  b2bAux [] 0 0 bits

/-- Python `n.to_bytes(4, "little")` for `n < 2^32`
(used in `on_save_clicked`, src/compress_ui.py line 174). -/
def toBytes4LE (n : Nat) : List Nat :=
  [n % 256, n / 256 % 256, n / 65536 % 256, n / 16777216 % 256]

/-- Python `int.from_bytes(raw[0:4], "little")`
(src/main.py lines 258-259). -/
def fromBytesLE (bytes : List Nat) : Nat :=
  bytes.foldr (fun b acc => b + 256 * acc) 0

/-- The file written by `on_save_clicked` (src/compress_ui.py lines
169-178): width and height as 4-byte little-endian values, then the
packed bitstream. -/
def saveCompressed (width height : Nat) (bits : List Nat) : List Nat :=
  toBytes4LE width ++ toBytes4LE height ++ bits_to_bytes bits

/-- The bit-unpacking loop of `MainWindow.openCompressedFile`
(src/main.py lines 262-266): each byte yields its 8 bits MSB-first. -/
def bytes_to_bits (data : List Nat) : List Nat :=
  data.flatMap (fun byte => (List.range 8).map (fun i => (byte >>> (7 - i)) &&& 1))

/-- The header/payload split of `MainWindow.openCompressedFile`
(src/main.py lines 253-266): width from bytes 0-3, height from bytes 4-7,
bitstream from the rest. -/
def openCompressed (raw : List Nat) : Nat × Nat × List Nat :=
  (fromBytesLE ((raw.take 4)), fromBytesLE ((raw.drop 4).take 4),
    bytes_to_bits (raw.drop 8))

/-! ## Traces of the compression scan

The encoder/model state of `compress_image` never feeds back into the
prediction or the residual computation (only `pred_grid` does), so the
scan factors into a pure residual/symbol stream and a fold of
`encode_symbol` over it.  The following definitions name the pieces; the
factoring is proved in `compressRun_factor`. -/

/-- Folding `encode_symbol` over a symbol list (the coder/model part of
the `compress_image` loop). -/
def encodeAll (em : ArithmeticEncoder × FrequencyTable) (syms : List Nat) :
    ArithmeticEncoder × FrequencyTable :=
  syms.foldl (fun em s => em.1.encode_symbol em.2 s) em

/-- The causal-buffer update of one pixel step:
`pred_grid[y][x] = pixelmap[y][x]`. -/
def predNext (pixelmap pred : List (List Pixel)) (yx : Nat × Nat) :
    List (List Pixel) :=
  setPx pred yx.1 yx.2 (getPx pixelmap yx.1 yx.2)

/-- The three raw (unclamped) residuals `actual - predicted + 255` of one
pixel, in channel order. -/
def pixelRaws (pixelmap pred : List (List Pixel)) (yx : Nat × Nat) : List Int :=
  let p := loco_predictor yx.2 yx.1 pred
  let a := getPx pixelmap yx.1 yx.2
  [a.1 - p.1 + 255, a.2.1 - p.2.1 + 255, a.2.2 - p.2.2 + 255]

/-- The three symbols of one pixel, after the defensive clamp. -/
def pixelSyms (pixelmap pred : List (List Pixel)) (yx : Nat × Nat) : List Nat :=
  (pixelRaws pixelmap pred yx).map clampResidual

/-- Raw residual stream of a scan over the given index list. -/
def rawsFrom (pixelmap : List (List Pixel)) :
    List (Nat × Nat) → List (List Pixel) → List Int
  | [], _ => []
  | yx :: t, pred => pixelRaws pixelmap pred yx ++ rawsFrom pixelmap t (predNext pixelmap pred yx)

/-- Symbol stream of a scan over the given index list. -/
def symsFrom (pixelmap : List (List Pixel)) :
    List (Nat × Nat) → List (List Pixel) → List Nat
  | [], _ => []
  | yx :: t, pred => pixelSyms pixelmap pred yx ++ symsFrom pixelmap t (predNext pixelmap pred yx)

/-- Predictor-output stream of a scan (one pixel triple per pixel). -/
def predsFrom (pixelmap : List (List Pixel)) :
    List (Nat × Nat) → List (List Pixel) → List Pixel
  | [], _ => []
  | yx :: t, pred =>
    loco_predictor yx.2 yx.1 pred :: predsFrom pixelmap t (predNext pixelmap pred yx)

/-- The all-zero causal buffer `compress_image`/`decompress_image` start
from. -/
def zeroGrid (H W : Nat) : List (List Pixel) :=
  List.replicate H (List.replicate W ((0:Int), (0:Int), (0:Int)))

/-- The raw residual stream of `compress_image` on `pixelmap` (width `W`). -/
def rawTrace (pixelmap : List (List Pixel)) (W : Nat) : List Int :=
  rawsFrom pixelmap (pixelIndices pixelmap.length W) (zeroGrid pixelmap.length W)

/-- The symbol stream `compress_image` actually encodes. -/
def symTrace (pixelmap : List (List Pixel)) (W : Nat) : List Nat :=
  symsFrom pixelmap (pixelIndices pixelmap.length W) (zeroGrid pixelmap.length W)

/-- The predictor outputs produced during `compress_image`. -/
def predTrace (pixelmap : List (List Pixel)) (W : Nat) : List Pixel :=
  predsFrom pixelmap (pixelIndices pixelmap.length W) (zeroGrid pixelmap.length W)

/-! ## Specification predicates -/

/-- The cumulative table `_rebuild_cumulative` builds from a frequency
list. -/
def cumList (freq : List Nat) : List Nat :=
  List.scanl (· + ·) 0 freq

/-- Well-formedness of a model state, as maintained by the codec: every
frequency is at least 1, `freq` has `symbol_count` entries, and *when the
cumulative table is present* it is the prefix-sum table of `freq` and
`total` is the sum of `freq`. -/
def TableInv (t : FrequencyTable) : Prop :=
  t.freq.length = t.symbol_count ∧
  (∀ f ∈ t.freq, 1 ≤ f) ∧
  (t.cum.isSome → t.cum = some (cumList t.freq) ∧ t.total = t.freq.sum)

/-- The coder-state bounds of §3 of the spec: `low ≤ high ≤ 2^32 - 1`
(`0 ≤ low` is inherent in the `Nat` embedding). -/
def CoderLH (low high : Nat) : Prop :=
  low ≤ high ∧ high < FULL_RANGE

/-- The exit condition of the E1/E2/E3 renormalization loops: none of the
three scaling cases applies. -/
def RenormDone (low high : Nat) : Prop :=
  ¬ high < HALF ∧ ¬ HALF ≤ low ∧ ¬ (FIRST_QTR ≤ low ∧ high < THIRD_QTR)

instance (a b : Nat) : Decidable (CoderLH a b) := by
  unfold CoderLH; infer_instance

instance (a b : Nat) : Decidable (RenormDone a b) := by
  unfold RenormDone; infer_instance

/-! ## Traces of the decompression scan -/

/-- Decoding `n` symbols in a row (the coder/model part of the
`decompress_image` loop). -/
def decodeAll : Nat → ArithmeticDecoder → FrequencyTable →
    List Nat × ArithmeticDecoder × FrequencyTable
  | 0, d, m => ([], d, m)
  | n + 1, d, m =>
    let ((s, d1), m1) := d.decode_symbol m
    let (rest, d2, m2) := decodeAll n d1 m1
    (s :: rest, d2, m2)

/-- Rebuilding the pixel grid from a decoded symbol stream, three symbols
per pixel (the grid part of the `decompress_image` loop). -/
def reconFrom : List (Nat × Nat) → List (List Pixel) → List Nat → List (List Pixel)
  | [], grid, _ => grid
  | yx :: t, grid, syms =>
    let p := loco_predictor yx.2 yx.1 grid
    let r := ((syms.getD 0 0 : Int) - 255) + p.1
    let g := ((syms.getD 1 0 : Int) - 255) + p.2.1
    let b := ((syms.getD 2 0 : Int) - 255) + p.2.2
    reconFrom t (setPx grid yx.1 yx.2 (r, g, b)) (syms.drop 3)

/-! ## The emitted bitstream as a rational number

`bitsVal w` is the value `0.w₀w₁w₂…` of a bit list read as a binary
fraction; `phiVal p w` is the value, in the encoder's current frame, of
the future output `w` when `p` underflow bits are pending: the next
decisive bit `b` (weight `2^(31+p)`) will be followed by `p` copies of
`1 - b`, so the representable values form the interval
`[2^31 - 2^(31+p), 2^31 - 2^(31+p) + 2^(32+p))` centred on `HALF`. -/

/-- The binary-fraction value of a bit list: `Σ w[j] / 2^(j+1)`. -/
def bitsVal : List Nat → ℚ
  | [] => 0
  | b :: t => ((b : ℚ) + bitsVal t) / 2

/-- The value, in the current coder frame, of the future bit output `w`
with `p` pending underflow bits. -/
def phiVal (p : Nat) (w : List Nat) : ℚ :=
  2 ^ 31 - 2 ^ (31 + p) + 2 ^ (32 + p) * bitsVal w

/-- `low + range * cum[s] / total`: the lower end of the narrowed
interval for symbol `s` (step 2 of `encode_symbol`/`decode_symbol`). -/
def nLowOf (low high : Nat) (m : FrequencyTable) (s : Nat) : Nat :=
  low + (high - low + 1) * m.ensure_cum.cumAt s / m.ensure_cum.total

/-- `low + range * cum[s+1] / total - 1`: the upper end of the narrowed
interval for symbol `s`. -/
def nHighOf (low high : Nat) (m : FrequencyTable) (s : Nat) : Nat :=
  low + (high - low + 1) * m.ensure_cum.cumAt (s + 1) / m.ensure_cum.total - 1

/-- Synchronization of a decoder state with an encoder state that has
`p` pending bits and will still emit exactly `w`: the decoder's unread
stream continues `w` at offset `32 + p` (missing bits read as 0), and its
`code` register holds the integer part of the frame value of `w`, the
fraction being exactly the unread tail. -/
def DecSync (d : ArithmeticDecoder) (p : Nat) (w : List Nat) : Prop :=
  (∀ j : Nat, d.bitstream.getD (d.pos + j) 0 = w.getD (32 + p + j) 0) ∧
  d.pos ≤ d.bitstream.length ∧
  (d.code : ℚ) = phiVal p w - bitsVal (w.drop (32 + p))

/-- All frequencies at most the rescale threshold; `increment` maintains
this, which bounds `total` by `511 · 10^6 < 2^30`. -/
def BoundedFreq (m : FrequencyTable) : Prop :=
  ∀ f ∈ m.freq, f ≤ 1000000

/-- The joint coder/model invariant at the start of each
`encode_symbol` call during a pass. -/
def EncReady (e : ArithmeticEncoder) (m : FrequencyTable) : Prop :=
  CoderLH e.low e.high ∧ RenormDone e.low e.high ∧ TableInv m ∧
  m.freq.length = SYMBOL_COUNT ∧ BoundedFreq m


/-- All channel values of a pixel lie in `[0, 255]`. -/
def PixelInRange (p : Pixel) : Prop :=
  0 ≤ p.1 ∧ p.1 ≤ 255 ∧ 0 ≤ p.2.1 ∧ p.2.1 ≤ 255 ∧ 0 ≤ p.2.2 ∧ p.2.2 ≤ 255

/-- All pixels of a grid lie in `[0, 255]` on every channel. -/
def GridInRange (g : List (List Pixel)) : Prop :=
  ∀ row ∈ g, ∀ p ∈ row, PixelInRange p

/-- The grid is rectangular with row length `W`. -/
def Rect (g : List (List Pixel)) (W : Nat) : Prop :=
  ∀ row ∈ g, row.length = W

instance (p : Pixel) : Decidable (PixelInRange p) := by
  unfold PixelInRange; infer_instance

instance (g : List (List Pixel)) : Decidable (GridInRange g) := by
  unfold GridInRange; infer_instance

instance (g : List (List Pixel)) (W : Nat) : Decidable (Rect g W) := by
  unfold Rect; infer_instance


/-! ## Basic facts about the constants -/

theorem FULL_RANGE_eq : FULL_RANGE = 4294967296 := rfl

theorem HALF_eq : HALF = 2147483648 := rfl

theorem FIRST_QTR_eq : FIRST_QTR = 1073741824 := rfl

theorem THIRD_QTR_eq : THIRD_QTR = 3221225472 := rfl

/-! ## Lemmas about the cumulative table -/

theorem length_cumList (freq : List Nat) : (cumList freq).length = freq.length + 1 := by
  simp [cumList, List.length_scanl]

theorem scanl_getD_succ (a : Nat) (l : List Nat) (k : Nat) (hk : k < l.length) :
    (List.scanl (· + ·) a l).getD (k + 1) 0
      = (List.scanl (· + ·) a l).getD k 0 + l.getD k 0 := by
  induction l generalizing a k with
  | nil => simp at hk
  | cons y s ih =>
    cases k with
    | zero => cases s <;> simp [List.scanl]
    | succ m =>
      have hm : m < s.length := by simpa using hk
      simpa [List.scanl] using ih (a + y) m hm

theorem cumList_succ (freq : List Nat) (i : Nat) (hi : i < freq.length) :
    (cumList freq).getD (i + 1) 0 = (cumList freq).getD i 0 + freq.getD i 0 :=
  scanl_getD_succ 0 freq i hi

theorem cumList_zero (freq : List Nat) : (cumList freq).getD 0 0 = 0 := by
  cases freq <;> simp [cumList, List.scanl]

theorem cumList_last (freq : List Nat) :
    (cumList freq).getD freq.length 0 = freq.sum := by
  have key : ∀ (a : Nat) (l : List Nat),
      (List.scanl (· + ·) a l).getD l.length 0 = a + l.sum := by
    intro a l
    induction l generalizing a with
    | nil => simp [List.scanl]
    | cons x t ih => simpa [List.scanl, Nat.add_assoc] using ih (a + x)
  simpa using key 0 freq

theorem cumList_mono (freq : List Nat) {i j : Nat} (hij : i ≤ j)
    (hj : j ≤ freq.length) : (cumList freq).getD i 0 ≤ (cumList freq).getD j 0 := by
  induction j with
  | zero =>
    have : i = 0 := by omega
    simp [this]
  | succ k ih =>
    rcases Nat.eq_or_lt_of_le hij with h | h
    · simp [h]
    · have hk : k < freq.length := by omega
      have h1 := cumList_succ freq k hk
      have := ih (by omega) (by omega)
      omega

theorem cumList_strict (freq : List Nat) (h1 : ∀ f ∈ freq, 1 ≤ f) {i : Nat}
    (hi : i < freq.length) :
    (cumList freq).getD i 0 < (cumList freq).getD (i + 1) 0 := by
  have hs := cumList_succ freq i hi
  have hmem : freq.getD i 0 ∈ freq := by
    rw [List.getD_eq_getElem _ _ hi]; exact List.getElem_mem _
  have := h1 _ hmem
  omega

/-! ## Preservation of the model invariant -/

theorem tableInv_mk0 (n : Nat) : TableInv (FrequencyTable.mk0 n) := by
  refine ⟨by simp [FrequencyTable.mk0], ?_, ?_⟩
  · intro f hf
    have := List.eq_of_mem_replicate hf
    omega
  · intro h
    simp [FrequencyTable.mk0] at h

theorem tableInv_rebuild (t : FrequencyTable) (h : TableInv t) :
    TableInv t.rebuild_cumulative := by
  obtain ⟨hlen, hpos, _⟩ := h
  exact ⟨hlen, hpos, fun _ => ⟨rfl, rfl⟩⟩

theorem tableInv_ensure (t : FrequencyTable) (h : TableInv t) :
    TableInv t.ensure_cum := by
  unfold FrequencyTable.ensure_cum
  cases hc : t.cum with
  | none => exact tableInv_rebuild t h
  | some c => simpa [hc] using h

theorem ensure_cum_freq (t : FrequencyTable) : t.ensure_cum.freq = t.freq := by
  unfold FrequencyTable.ensure_cum
  cases t.cum <;> simp [FrequencyTable.rebuild_cumulative]

theorem ensure_cum_symbol_count (t : FrequencyTable) :
    t.ensure_cum.symbol_count = t.symbol_count := by
  unfold FrequencyTable.ensure_cum
  cases t.cum <;> simp [FrequencyTable.rebuild_cumulative]

theorem ensure_cum_isSome (t : FrequencyTable) : t.ensure_cum.cum.isSome := by
  unfold FrequencyTable.ensure_cum
  cases hc : t.cum <;> simp [FrequencyTable.rebuild_cumulative, hc]

theorem ensure_cum_idem (t : FrequencyTable) : t.ensure_cum.ensure_cum = t.ensure_cum := by
  unfold FrequencyTable.ensure_cum
  cases hc : t.cum <;>
    simp [FrequencyTable.rebuild_cumulative, FrequencyTable.ensure_cum, hc]

/-- After `ensure_cum` on an invariant-satisfying table, the cumulative
table is the prefix-sum table of `freq` and `total` is its sum. -/
theorem ensure_cum_spec (t : FrequencyTable) (h : TableInv t) :
    t.ensure_cum.cum = some (cumList t.freq) ∧ t.ensure_cum.total = t.freq.sum := by
  unfold FrequencyTable.ensure_cum
  cases hc : t.cum with
  | none => exact ⟨rfl, rfl⟩
  | some c =>
    obtain ⟨-, -, h3⟩ := h
    exact h3 (by simp [hc])

/-- Projections of `increment`, read off the definition. -/
theorem increment_freq_eq (t : FrequencyTable) (s : Nat) :
    (t.increment s).freq =
      (if (t.freq.set s (t.freq.getD s 0 + 1)).getD s 0 > 1000000 then
        (t.freq.set s (t.freq.getD s 0 + 1)).map
          (fun f => let g := (f + 1) / 2; if g < 1 then 1 else g)
      else t.freq.set s (t.freq.getD s 0 + 1)) := rfl

theorem increment_cum (t : FrequencyTable) (s : Nat) : (t.increment s).cum = none := rfl

theorem increment_symbol_count (t : FrequencyTable) (s : Nat) :
    (t.increment s).symbol_count = t.symbol_count := rfl

theorem increment_total (t : FrequencyTable) (s : Nat) :
    (t.increment s).total = t.total := rfl

theorem increment_freq_pos (t : FrequencyTable) (s : Nat) (hpos : ∀ f ∈ t.freq, 1 ≤ f) :
    ∀ f ∈ (t.increment s).freq, 1 ≤ f := by
  rw [increment_freq_eq]
  split
  · intro f hf
    obtain ⟨g, -, hg⟩ := List.mem_map.1 hf
    dsimp only at hg
    split at hg <;> omega
  · intro f hf
    rcases List.mem_or_eq_of_mem_set hf with hmem | heq
    · exact hpos f hmem
    · omega

theorem increment_length (t : FrequencyTable) (s : Nat) :
    (t.increment s).freq.length = t.freq.length := by
  rw [increment_freq_eq]
  split <;> simp

theorem tableInv_increment (t : FrequencyTable) (s : Nat) (h : TableInv t) :
    TableInv (t.increment s) := by
  obtain ⟨hlen, hpos, -⟩ := h
  refine ⟨?_, increment_freq_pos t s hpos, ?_⟩
  · rw [increment_length, increment_symbol_count, hlen]
  · intro hs
    rw [increment_cum] at hs
    simp at hs

/-! ## C6: the model invariant as stated, and its corrected form -/

set_option maxRecDepth 400000 in
/-- C6 counterexample: the claim asserts `Σ freq[i] == total` at *every*
point of an encode/decode pass, but `increment` leaves the `total` field
stale (only `_rebuild_cumulative` refreshes it).  At the end of the
`compress_image` scan of the 1×1 image `[[(0,0,0)]]` — a reachable point
of an encode pass, just before `finish()` — the frequency sum is 514
while `total` is 513. -/
theorem C6_cex :
    ¬ ((compressRun [[((0:Int),(0:Int),(0:Int))]] 1).model.freq.sum
        = (compressRun [[((0:Int),(0:Int),(0:Int))]] 1).model.total) := by
  decide

/-- C6 (amended): every `freq[i] ≥ 1` holds at every point, and
`Σ freq[i] == total == cum[symbol_count]` holds at every point at which
the cumulative table is present (it is marked dirty by `increment` and
rebuilt on the next access; while dirty, `total` may be stale).  Formally:
the property `TableInv` holds of the fresh model and is preserved by the
two state-changing model operations (`_ensure_cum`, reached from
`get_total`, `get_low_high` and `get_symbol_for_value`, and `increment`),
and whenever the cumulative table is present it forces
`Σ freq = total = cum[symbol_count]`. -/
theorem C6_model_invariant :
    TableInv (FrequencyTable.mk0 SYMBOL_COUNT) ∧
    (∀ t : FrequencyTable, TableInv t →
      TableInv t.ensure_cum ∧ (∀ s, TableInv (t.increment s)) ∧
      (t.cum.isSome →
        t.freq.sum = t.total ∧ t.cumAt t.symbol_count = t.total ∧
          ∀ f ∈ t.freq, 1 ≤ f)) := by
  refine ⟨tableInv_mk0 _, fun t h => ⟨tableInv_ensure t h, fun s => tableInv_increment t s h, ?_⟩⟩
  intro hsome
  obtain ⟨hlen, hpos, h3⟩ := h
  obtain ⟨hcum, htot⟩ := h3 hsome
  refine ⟨htot.symm, ?_, hpos⟩
  unfold FrequencyTable.cumAt
  rw [hcum, htot, ← hlen]
  simpa using cumList_last t.freq

/-- Witness for `C6_model_invariant` at the fresh 511-symbol model and its
rebuilt form. -/
theorem C6_model_invariant_witness :
    TableInv (FrequencyTable.mk0 SYMBOL_COUNT).ensure_cum ∧
      TableInv ((FrequencyTable.mk0 SYMBOL_COUNT).increment 7) :=
  ⟨(C6_model_invariant.2 (FrequencyTable.mk0 SYMBOL_COUNT) C6_model_invariant.1).1,
   (C6_model_invariant.2 (FrequencyTable.mk0 SYMBOL_COUNT) C6_model_invariant.1).2.1 7⟩

/-! ## C5: `FrequencyTable.increment` -/

/-- C5: `increment(symbol)` adds 1 to `freq[symbol]`; if the resulting
count exceeds 1,000,000 every entry `f` is replaced by
`max(1, (f+1) div 2)`, otherwise no other entry changes; afterwards every
entry is still at least 1. -/
theorem C5_increment (t : FrequencyTable) (s : Nat) (_hs : s < t.freq.length)
    (h1 : ∀ f ∈ t.freq, 1 ≤ f) :
    ((t.freq.set s (t.freq.getD s 0 + 1)).getD s 0 ≤ 1000000 →
        (t.increment s).freq = t.freq.set s (t.freq.getD s 0 + 1)) ∧
    (1000000 < (t.freq.set s (t.freq.getD s 0 + 1)).getD s 0 →
        (t.increment s).freq
          = (t.freq.set s (t.freq.getD s 0 + 1)).map (fun f => max 1 ((f + 1) / 2))) ∧
    (∀ f ∈ (t.increment s).freq, 1 ≤ f) := by
  refine ⟨?_, ?_, increment_freq_pos t s h1⟩
  · intro hle
    rw [increment_freq_eq, if_neg (by omega)]
  · intro hgt
    rw [increment_freq_eq, if_pos (by omega)]
    refine List.map_congr_left (fun a _ => ?_)
    dsimp only
    split <;> omega

/-- Witness for `C5_increment`: a concrete table at the rescale threshold. -/
theorem C5_increment_witness :
    (({ symbol_count := 3, freq := [1000000, 2, 3], cum := none,
        total := 1000005 } : FrequencyTable).increment 0).freq
      = [500001, 1, 2] := by
  have h := C5_increment
    { symbol_count := 3, freq := [1000000, 2, 3], cum := none, total := 1000005 }
    0 (by decide) (by decide)
  rw [h.2.1 (by decide)]
  decide

/-! ## C4: the LOCO-I predictor -/

/-- C4: the predictor returns `(0,0,0)` at the origin, the top neighbor on
the left edge, the left neighbor on the top edge, and otherwise, per
channel, `L + T - TL` clamped to `[min(L,T), max(L,T)]`. -/
theorem C4_loco_predictor (G : List (List Pixel)) (x y : Nat) :
    loco_predictor 0 0 G = ((0:Int), (0:Int), (0:Int)) ∧
    (x = 0 → 0 < y → loco_predictor x y G = getPx G (y - 1) x) ∧
    (y = 0 → 0 < x → loco_predictor x y G = getPx G y (x - 1)) ∧
    (0 < x → 0 < y →
      loco_predictor x y G =
        (min (max ((getPx G y (x-1)).1 + (getPx G (y-1) x).1 - (getPx G (y-1) (x-1)).1)
               (min (getPx G y (x-1)).1 (getPx G (y-1) x).1))
             (max (getPx G y (x-1)).1 (getPx G (y-1) x).1),
         min (max ((getPx G y (x-1)).2.1 + (getPx G (y-1) x).2.1 - (getPx G (y-1) (x-1)).2.1)
               (min (getPx G y (x-1)).2.1 (getPx G (y-1) x).2.1))
             (max (getPx G y (x-1)).2.1 (getPx G (y-1) x).2.1),
         min (max ((getPx G y (x-1)).2.2 + (getPx G (y-1) x).2.2 - (getPx G (y-1) (x-1)).2.2)
               (min (getPx G y (x-1)).2.2 (getPx G (y-1) x).2.2))
             (max (getPx G y (x-1)).2.2 (getPx G (y-1) x).2.2))) := by
  have clampEq : ∀ v lo hi : Int, lo ≤ hi → max (min v hi) lo = min (max v lo) hi := by
    intro v lo hi h
    omega
  refine ⟨?_, ?_, ?_, ?_⟩
  · unfold loco_predictor
    rw [if_pos ⟨rfl, rfl⟩]
  · intro hx hy
    subst hx
    unfold loco_predictor
    rw [if_neg (by omega : ¬ ((0:Nat) = 0 ∧ y = 0)), if_pos rfl]
  · intro hy hx
    subst hy
    unfold loco_predictor
    rw [if_neg (by omega : ¬ (x = 0 ∧ (0:Nat) = 0)),
      if_neg (by omega : ¬ x = 0), if_pos rfl]
  · intro hx hy
    unfold loco_predictor
    rw [if_neg (by omega : ¬ (x = 0 ∧ y = 0)),
      if_neg (by omega : ¬ x = 0), if_neg (by omega : ¬ y = 0)]
    dsimp only
    unfold medpred
    refine congrArg₂ Prod.mk (clampEq _ _ _ (min_le_max)) (congrArg₂ Prod.mk ?_ ?_) <;>
      exact clampEq _ _ _ (min_le_max)

/-- Witness for `C4_loco_predictor` on a concrete 2×2 grid at the interior
pixel (1,1): `L = (7,8,9)`, `T = (4,5,6)`, `TL = (1,2,3)`, so `L + T - TL`
overshoots `max(L,T)` on each channel and the clamp yields `(7,8,9)`. -/
theorem C4_loco_predictor_witness :
    loco_predictor 1 1
        [[((1:Int),(2:Int),(3:Int)), ((4:Int),(5:Int),(6:Int))],
         [((7:Int),(8:Int),(9:Int)), ((100:Int),(0:Int),(50:Int))]]
      = ((7:Int), (8:Int), (9:Int)) := by
  have h := (C4_loco_predictor
    [[((1:Int),(2:Int),(3:Int)), ((4:Int),(5:Int),(6:Int))],
     [((7:Int),(8:Int),(9:Int)), ((100:Int),(0:Int),(50:Int))]] 1 1).2.2.2
    (by decide) (by decide)
  rw [h]
  decide

/-! ## C2: behavior of `compress_image` on degenerate grids -/

/-- C2 counterexample: on a height-0 grid `compress_image` evaluates
`pixelmap[0]` (src/compress.py line 261), which raises `IndexError` — the
embedding returns `none`, not the claimed `finish()` flush. -/
theorem C2_cex : compress_image ([] : List (List Pixel)) = none := rfl

/-- C2 (amended): `compress_image` succeeds for every grid with at least
one row (whatever the channel values), and on grids whose rows are empty
(`width == 0`) its output is exactly the `finish()` flush of a fresh
encoder, with no symbols encoded; for `height == 0` it raises
`IndexError` (`C2_cex`). -/
theorem C2_compress_succeeds :
    (∀ pm : List (List Pixel), pm ≠ [] → (compress_image pm).isSome) ∧
    (∀ H : Nat, 0 < H →
      compress_image (List.replicate H ([] : List Pixel))
        = some (ArithmeticEncoder.init.finish)) := by
  constructor
  · intro pm hpm
    cases pm with
    | nil => exact absurd rfl hpm
    | cons r rest => simp [compress_image]
  · intro H hH
    obtain ⟨n, rfl⟩ : ∃ n, H = n + 1 := ⟨H - 1, by omega⟩
    have hrep : List.replicate (n+1) ([] : List Pixel)
        = ([] : List Pixel) :: List.replicate n [] := List.replicate_succ _ _
    rw [hrep]
    show some ((compressRun (([] : List Pixel) :: List.replicate n []) 0).enc.finish) = _
    have hidx : pixelIndices (([] : List Pixel) :: List.replicate n []).length 0 = [] := by
      simp [pixelIndices]
    rw [compressRun, hidx]
    rfl

/-- Witness for `C2_compress_succeeds` on a 1×1 grid and on the 2×0 grid,
whose output is the two-bit flush `[0, 1]`. -/
theorem C2_compress_succeeds_witness :
    (compress_image [[((0:Int),(0:Int),(0:Int))]]).isSome ∧
      compress_image (List.replicate 2 ([] : List Pixel)) = some [0, 1] := by
  refine ⟨C2_compress_succeeds.1 _ (by simp), ?_⟩
  rw [C2_compress_succeeds.2 2 (by omega)]
  decide

/-! ## The binary search of `get_symbol_for_value` -/

theorem gsfvLoop_fuel_zero (c : List Nat) (v : Int) (lo hi : Nat) :
    gsfvLoop c v 0 lo hi = lo := rfl

theorem gsfvLoop_succ (c : List Nat) (v : Int) (fuel lo hi : Nat) :
    gsfvLoop c v (fuel + 1) lo hi =
      if lo + 1 < hi then
        if (c.getD ((lo + hi) / 2) 0 : Int) > v then gsfvLoop c v fuel lo ((lo + hi) / 2)
        else gsfvLoop c v fuel ((lo + hi) / 2) hi
      else lo := rfl

/-- The loop's result always stays in `[lo, hi)`. -/
theorem gsfvLoop_bounds (c : List Nat) (v : Int) :
    ∀ (fuel lo hi : Nat), lo < hi →
      lo ≤ gsfvLoop c v fuel lo hi ∧ gsfvLoop c v fuel lo hi < hi := by
  intro fuel
  induction fuel with
  | zero => intro lo hi h; rw [gsfvLoop_fuel_zero]; omega
  | succ f ih =>
    intro lo hi h
    rw [gsfvLoop_succ]
    split
    · split
      · have := ih lo ((lo + hi) / 2) (by omega)
        omega
      · have := ih ((lo + hi) / 2) hi (by omega)
        omega
    · omega

/-- If `v` is below `cum[1]` and `cum` is monotone from index 1, the
search never moves `lo` and returns 0. -/
theorem gsfvLoop_low (c : List Nat) (v : Int) (N : Nat)
    (hmono : ∀ m, 1 ≤ m → m < N → (c.getD 1 0 : Int) ≤ c.getD m 0)
    (hv : v < (c.getD 1 0 : Int)) :
    ∀ (fuel hi : Nat), hi ≤ N → gsfvLoop c v fuel 0 hi = 0 := by
  intro fuel
  induction fuel with
  | zero => intro hi _; rfl
  | succ f ih =>
    intro hi hhi
    rw [gsfvLoop_succ]
    split
    · rw [if_pos (by
        have h1 : 1 ≤ (0 + hi) / 2 := by omega
        have h2 : (0 + hi) / 2 < N := by omega
        have := hmono _ h1 h2
        omega)]
      exact ih _ (by omega)
    · rfl

/-- If `v` is at least `cum[N-1]` and `cum` is monotone below `N`, the
search keeps `hi = N` and drives `lo` up to `N - 1`. -/
theorem gsfvLoop_high (c : List Nat) (v : Int) (N : Nat)
    (hmono : ∀ m, m ≤ N - 1 → (c.getD m 0 : Int) ≤ c.getD (N - 1) 0)
    (hv : (c.getD (N - 1) 0 : Int) ≤ v) :
    ∀ (fuel lo : Nat), lo ≤ N - 1 → N - 1 - lo ≤ fuel →
      gsfvLoop c v fuel lo N = N - 1 := by
  intro fuel
  induction fuel with
  | zero =>
    intro lo h1 h2
    rw [gsfvLoop_fuel_zero]
    omega
  | succ f ih =>
    intro lo h1 h2
    rw [gsfvLoop_succ]
    split
    · have hmid : (lo + N) / 2 ≤ N - 1 := by omega
      rw [if_neg (by
        have := hmono _ hmid
        omega)]
      exact ih _ hmid (by omega)
    · omega

/-- C10: for *every* integer `value` — negative or at least `total`
included — `get_symbol_for_value` returns a symbol in `[0, 510]`; it
returns 0 whenever `value < cum[1]` and 510 whenever `value ≥ cum[510]`.
(The fuelled loop also exits through its guard within `symbol_count`
iterations, which is the embedding's form of the termination statement.)
Hence `decode_symbol`'s subsequent `get_low_high(symbol)` lookup never
indexes the cumulative table out of range, even on a garbage bitstream. -/
theorem C10_get_symbol_for_value_safe (t : FrequencyTable) (h : TableInv t)
    (hn : t.symbol_count = SYMBOL_COUNT) (value : Int) :
    (t.get_symbol_for_value value).1 ≤ 510 ∧
    (value < ((cumList t.freq).getD 1 0 : Int) → (t.get_symbol_for_value value).1 = 0) ∧
    (((cumList t.freq).getD 510 0 : Int) ≤ value →
      (t.get_symbol_for_value value).1 = 510) := by
  have hlen : t.freq.length = 511 := by
    rw [h.1, hn]; rfl
  have hc : t.ensure_cum.cum.getD [] = cumList t.freq := by
    rw [(ensure_cum_spec t h).1]; rfl
  have hsc : t.ensure_cum.symbol_count = 511 := by
    rw [ensure_cum_symbol_count, hn]; rfl
  have hres : (t.get_symbol_for_value value).1
      = gsfvLoop (cumList t.freq) value 511 0 511 := by
    show gsfvLoop (t.ensure_cum.cum.getD []) value t.ensure_cum.symbol_count 0
        t.ensure_cum.symbol_count = _
    rw [hc, hsc]
  refine ⟨?_, ?_, ?_⟩
  · rw [hres]
    have := gsfvLoop_bounds (cumList t.freq) value 511 0 511 (by omega)
    omega
  · intro hv
    rw [hres]
    refine gsfvLoop_low (cumList t.freq) value 511 ?_ hv 511 511 (le_refl _)
    intro m h1 h2
    exact_mod_cast cumList_mono t.freq h1 (by omega)
  · intro hv
    rw [hres]
    have hmono : ∀ m, m ≤ 511 - 1 →
        ((cumList t.freq).getD m 0 : Int) ≤ (cumList t.freq).getD (511 - 1) 0 := by
      intro m hm
      exact_mod_cast cumList_mono t.freq hm (by omega)
    have h510 := gsfvLoop_high (cumList t.freq) value 511 hmono (by simpa using hv)
      511 0 (by omega) (by omega)
    simpa using h510

set_option maxRecDepth 400000 in
/-- Witness for `C10_get_symbol_for_value_safe` on the fresh model: a
negative value yields symbol 0, a huge value yields symbol 510. -/
theorem C10_get_symbol_for_value_safe_witness :
    ((FrequencyTable.mk0 SYMBOL_COUNT).get_symbol_for_value (-5)).1 = 0 ∧
      ((FrequencyTable.mk0 SYMBOL_COUNT).get_symbol_for_value 1000000).1 = 510 := by
  constructor
  · exact (C10_get_symbol_for_value_safe (FrequencyTable.mk0 SYMBOL_COUNT)
      (tableInv_mk0 _) rfl (-5)).2.1 (by decide)
  · exact (C10_get_symbol_for_value_safe (FrequencyTable.mk0 SYMBOL_COUNT)
      (tableInv_mk0 _) rfl 1000000).2.2 (by decide)

/-! ## Renormalization: interval bounds and loop exit -/

theorem sum_ge_length (l : List Nat) (h : ∀ f ∈ l, 1 ≤ f) : l.length ≤ l.sum := by
  induction l with
  | nil => simp
  | cons x t ih =>
    have hx := h x (by simp)
    have ht := ih (fun f hf => h f (by simp [hf]))
    simp only [List.length_cons, List.sum_cons]
    omega

theorem encRenorm_zero (e : ArithmeticEncoder) : encRenorm 0 e = e := rfl

theorem encRenorm_succ (fuel : Nat) (e : ArithmeticEncoder) :
    encRenorm (fuel + 1) e =
      (if e.high < HALF then
        encRenorm fuel { e.output_bit 0 with low := e.low * 2, high := e.high * 2 + 1 }
      else if HALF ≤ e.low then
        encRenorm fuel { e.output_bit 1 with low := (e.low - HALF) * 2
                                             high := (e.high - HALF) * 2 + 1 }
      else if FIRST_QTR ≤ e.low ∧ e.high < THIRD_QTR then
        encRenorm fuel { e with pending := e.pending + 1
                                low := (e.low - FIRST_QTR) * 2
                                high := (e.high - FIRST_QTR) * 2 + 1 }
      else e) := rfl

theorem output_bit_low (e : ArithmeticEncoder) (b : Nat) : (e.output_bit b).low = e.low := rfl

theorem output_bit_high (e : ArithmeticEncoder) (b : Nat) : (e.output_bit b).high = e.high := rfl

theorem encRenorm_LH : ∀ (fuel : Nat) (e : ArithmeticEncoder), CoderLH e.low e.high →
    CoderLH (encRenorm fuel e).low (encRenorm fuel e).high := by
  intro fuel
  induction fuel with
  | zero => intro e h; exact h
  | succ f ih =>
    intro e h
    simp only [CoderLH, FULL_RANGE_eq] at h
    rw [encRenorm_succ]
    split
    · refine ih _ ?_
      simp only [CoderLH, FULL_RANGE_eq, HALF_eq] at *
      omega
    · split
      · refine ih _ ?_
        simp only [CoderLH, FULL_RANGE_eq, HALF_eq] at *
        omega
      · split
        · refine ih _ ?_
          simp only [CoderLH, FULL_RANGE_eq, FIRST_QTR_eq, THIRD_QTR_eq] at *
          omega
        · simpa [CoderLH, FULL_RANGE_eq] using h

theorem encRenorm_done : ∀ (fuel : Nat) (e : ArithmeticEncoder), CoderLH e.low e.high →
    HALF < 2 ^ fuel * (e.high - e.low + 1) →
    RenormDone (encRenorm fuel e).low (encRenorm fuel e).high := by
  intro fuel
  induction fuel with
  | zero =>
    intro e h hf
    rw [encRenorm_zero]
    simp only [CoderLH, FULL_RANGE_eq] at h
    simp only [pow_zero, one_mul] at hf
    simp only [RenormDone, HALF_eq, FIRST_QTR_eq, THIRD_QTR_eq] at *
    omega
  | succ f ih =>
    intro e h hf
    have h' := h
    simp only [CoderLH, FULL_RANGE_eq] at h'
    have hpow : (2:Nat) ^ (f + 1) = 2 ^ f * 2 := pow_succ 2 f
    rw [encRenorm_succ]
    split
    · rename_i hc1
      refine ih _ ?_ ?_
      · simp only [CoderLH, FULL_RANGE_eq, HALF_eq] at *
        omega
      · have : (e.high * 2 + 1) - e.low * 2 + 1 = 2 * (e.high - e.low + 1) := by omega
        dsimp only
        rw [this, ← Nat.mul_assoc, ← hpow]
        exact hf
    · split
      · rename_i hc1 hc2
        simp only [HALF_eq] at hc1 hc2
        refine ih _ ?_ ?_
        · simp only [CoderLH, FULL_RANGE_eq, HALF_eq]
          try dsimp only
          omega
        · have : ((e.high - HALF) * 2 + 1) - (e.low - HALF) * 2 + 1
              = 2 * (e.high - e.low + 1) := by
            simp only [HALF_eq]
            omega
          dsimp only
          rw [this, ← Nat.mul_assoc, ← hpow]
          exact hf
      · split
        · rename_i hc1 hc2 hc3
          simp only [HALF_eq] at hc1 hc2
          simp only [FIRST_QTR_eq, THIRD_QTR_eq] at hc3
          refine ih _ ?_ ?_
          · simp only [CoderLH, FULL_RANGE_eq, FIRST_QTR_eq]
            try dsimp only
            omega
          · have : ((e.high - FIRST_QTR) * 2 + 1) - (e.low - FIRST_QTR) * 2 + 1
                = 2 * (e.high - e.low + 1) := by
              simp only [FIRST_QTR_eq]
              omega
            dsimp only
            rw [this, ← Nat.mul_assoc, ← hpow]
            exact hf
        · rename_i hc1 hc2 hc3
          exact ⟨hc1, hc2, hc3⟩

theorem decRenorm_zero (d : ArithmeticDecoder) : decRenorm 0 d = d := rfl

theorem decRenorm_succ (fuel : Nat) (d : ArithmeticDecoder) :
    decRenorm (fuel + 1) d =
      (if d.high < HALF then
        decRenorm fuel { d.read_bit.2 with low := d.low * 2, high := d.high * 2 + 1
                                           code := d.code * 2 + (d.read_bit.1 : Int) }
      else if HALF ≤ d.low then
        decRenorm fuel { d.read_bit.2 with low := (d.low - HALF) * 2
                                           high := (d.high - HALF) * 2 + 1
                                           code := (d.code - (HALF : Int)) * 2
                                             + (d.read_bit.1 : Int) }
      else if FIRST_QTR ≤ d.low ∧ d.high < THIRD_QTR then
        decRenorm fuel { d.read_bit.2 with low := (d.low - FIRST_QTR) * 2
                                           high := (d.high - FIRST_QTR) * 2 + 1
                                           code := (d.code - (FIRST_QTR : Int)) * 2
                                             + (d.read_bit.1 : Int) }
      else d) := rfl

theorem read_bit_low (d : ArithmeticDecoder) : d.read_bit.2.low = d.low := by
  unfold ArithmeticDecoder.read_bit
  split <;> rfl

theorem read_bit_high (d : ArithmeticDecoder) : d.read_bit.2.high = d.high := by
  unfold ArithmeticDecoder.read_bit
  split <;> rfl

theorem read_bit_bitstream (d : ArithmeticDecoder) :
    d.read_bit.2.bitstream = d.bitstream := by
  unfold ArithmeticDecoder.read_bit
  split <;> rfl

theorem decRenorm_LH : ∀ (fuel : Nat) (d : ArithmeticDecoder), CoderLH d.low d.high →
    CoderLH (decRenorm fuel d).low (decRenorm fuel d).high := by
  intro fuel
  induction fuel with
  | zero => intro d h; exact h
  | succ f ih =>
    intro d h
    simp only [CoderLH, FULL_RANGE_eq] at h
    rw [decRenorm_succ]
    split
    · refine ih _ ?_
      simp only [CoderLH, FULL_RANGE_eq, HALF_eq] at *
      omega
    · split
      · refine ih _ ?_
        simp only [CoderLH, FULL_RANGE_eq, HALF_eq] at *
        omega
      · split
        · refine ih _ ?_
          simp only [CoderLH, FULL_RANGE_eq, FIRST_QTR_eq, THIRD_QTR_eq] at *
          omega
        · simpa [CoderLH, FULL_RANGE_eq] using h

theorem decRenorm_done : ∀ (fuel : Nat) (d : ArithmeticDecoder), CoderLH d.low d.high →
    HALF < 2 ^ fuel * (d.high - d.low + 1) →
    RenormDone (decRenorm fuel d).low (decRenorm fuel d).high := by
  intro fuel
  induction fuel with
  | zero =>
    intro d h hf
    rw [decRenorm_zero]
    simp only [CoderLH, FULL_RANGE_eq] at h
    simp only [pow_zero, one_mul] at hf
    simp only [RenormDone, HALF_eq, FIRST_QTR_eq, THIRD_QTR_eq] at *
    omega
  | succ f ih =>
    intro d h hf
    have h' := h
    simp only [CoderLH, FULL_RANGE_eq] at h'
    have hpow : (2:Nat) ^ (f + 1) = 2 ^ f * 2 := pow_succ 2 f
    rw [decRenorm_succ]
    split
    · rename_i hc1
      refine ih _ ?_ ?_
      · simp only [CoderLH, FULL_RANGE_eq, HALF_eq] at *
        omega
      · have : (d.high * 2 + 1) - d.low * 2 + 1 = 2 * (d.high - d.low + 1) := by omega
        dsimp only
        rw [this, ← Nat.mul_assoc, ← hpow]
        exact hf
    · split
      · rename_i hc1 hc2
        simp only [HALF_eq] at hc1 hc2
        refine ih _ ?_ ?_
        · simp only [CoderLH, FULL_RANGE_eq, HALF_eq]
          try dsimp only
          omega
        · have : ((d.high - HALF) * 2 + 1) - (d.low - HALF) * 2 + 1
              = 2 * (d.high - d.low + 1) := by
            simp only [HALF_eq]
            omega
          dsimp only
          rw [this, ← Nat.mul_assoc, ← hpow]
          exact hf
      · split
        · rename_i hc1 hc2 hc3
          simp only [HALF_eq] at hc1 hc2
          simp only [FIRST_QTR_eq, THIRD_QTR_eq] at hc3
          refine ih _ ?_ ?_
          · simp only [CoderLH, FULL_RANGE_eq, FIRST_QTR_eq]
            try dsimp only
            omega
          · have : ((d.high - FIRST_QTR) * 2 + 1) - (d.low - FIRST_QTR) * 2 + 1
                = 2 * (d.high - d.low + 1) := by
              simp only [FIRST_QTR_eq]
              omega
            dsimp only
            rw [this, ← Nat.mul_assoc, ← hpow]
            exact hf
        · rename_i hc1 hc2 hc3
          exact ⟨hc1, hc2, hc3⟩

/-- Exiting the renormalization loop forces the interval to span more
than a quarter of the full range. -/
theorem renormDone_range {low high : Nat} (hd : RenormDone low high)
    (h : CoderLH low high) : FIRST_QTR < high - low + 1 := by
  obtain ⟨h1, h2, h3⟩ := hd
  simp only [CoderLH, FULL_RANGE_eq] at h
  simp only [HALF_eq, FIRST_QTR_eq, THIRD_QTR_eq] at *
  omega

/-- The interval-narrowing step of `encode_symbol`/`decode_symbol`
preserves the coder bounds and shrinks the interval, provided the model's
total fits into the current interval. -/
theorem narrow_LH (low high sl sh total : Nat) (h : CoderLH low high)
    (htot : 0 < total) (hsl : sl < sh) (hsh : sh ≤ total)
    (hrange : total ≤ high - low + 1) :
    CoderLH (low + (high - low + 1) * sl / total)
        (low + (high - low + 1) * sh / total - 1) ∧
      low ≤ low + (high - low + 1) * sl / total ∧
      low + (high - low + 1) * sh / total - 1 ≤ high := by
  have k1 : (high - low + 1) * sl / total + 1 ≤ (high - low + 1) * sh / total := by
    have hmul : (high - low + 1) * (sl + 1) ≤ (high - low + 1) * sh :=
      Nat.mul_le_mul_left _ hsl
    have hexp : (high - low + 1) * (sl + 1) = (high - low + 1) * sl + (high - low + 1) := by
      ring
    have h1 : (high - low + 1) * sl + total ≤ (high - low + 1) * sh := by omega
    calc (high - low + 1) * sl / total + 1
        = ((high - low + 1) * sl + total) / total := (Nat.add_div_right _ htot).symm
      _ ≤ (high - low + 1) * sh / total := Nat.div_le_div_right h1
  have k2 : (high - low + 1) * sh / total ≤ high - low + 1 := by
    have hmul : (high - low + 1) * sh ≤ (high - low + 1) * total :=
      Nat.mul_le_mul_left _ hsh
    calc (high - low + 1) * sh / total
        ≤ (high - low + 1) * total / total := Nat.div_le_div_right hmul
      _ = high - low + 1 := Nat.mul_div_cancel _ htot
  simp only [CoderLH, FULL_RANGE_eq] at h ⊢
  obtain ⟨A, hA⟩ : ∃ A, (high - low + 1) * sl / total = A := ⟨_, rfl⟩
  obtain ⟨B, hB⟩ : ∃ B, (high - low + 1) * sh / total = B := ⟨_, rfl⟩
  simp only [hA, hB] at k1 k2 ⊢
  omega

/-! ## Facts about the ensured model used by both coders -/

theorem ensured_cumAt (m : FrequencyTable) (h : TableInv m) (i : Nat) :
    m.ensure_cum.cumAt i = (cumList m.freq).getD i 0 := by
  unfold FrequencyTable.cumAt
  rw [(ensure_cum_spec m h).1]
  rfl

theorem ensured_total (m : FrequencyTable) (h : TableInv m) :
    m.ensure_cum.total = m.freq.sum :=
  (ensure_cum_spec m h).2

/-- `encode_symbol` unfolded, with the double `_ensure_cum` collapsed. -/
theorem encode_symbol_eq (e : ArithmeticEncoder) (m : FrequencyTable) (s : Nat) :
    e.encode_symbol m s =
      (encRenorm RENORM_FUEL
        { e with high := e.low + (e.high - e.low + 1) * m.ensure_cum.cumAt (s + 1)
                            / m.ensure_cum.total - 1
                 low := e.low + (e.high - e.low + 1) * m.ensure_cum.cumAt s
                            / m.ensure_cum.total },
       m.ensure_cum.increment s) := by
  unfold ArithmeticEncoder.encode_symbol FrequencyTable.get_total
    FrequencyTable.get_low_high
  dsimp only
  rw [ensure_cum_idem]

/-- `decode_symbol` unfolded, with the stacked `_ensure_cum`s collapsed. -/
theorem decode_symbol_eq (d : ArithmeticDecoder) (m : FrequencyTable) :
    d.decode_symbol m =
      ((gsfvLoop (m.ensure_cum.cum.getD [])
          (((d.code - (d.low : Int) + 1) * (m.ensure_cum.total : Int) - 1).fdiv
            ((d.high - d.low + 1 : Nat) : Int))
          m.ensure_cum.symbol_count 0 m.ensure_cum.symbol_count,
        decRenorm RENORM_FUEL
          { d with high := d.low + (d.high - d.low + 1)
                      * m.ensure_cum.cumAt
                          ((gsfvLoop (m.ensure_cum.cum.getD [])
                            (((d.code - (d.low : Int) + 1) * (m.ensure_cum.total : Int)
                                - 1).fdiv ((d.high - d.low + 1 : Nat) : Int))
                            m.ensure_cum.symbol_count 0 m.ensure_cum.symbol_count) + 1)
                      / m.ensure_cum.total - 1
                   low := d.low + (d.high - d.low + 1)
                      * m.ensure_cum.cumAt
                          (gsfvLoop (m.ensure_cum.cum.getD [])
                            (((d.code - (d.low : Int) + 1) * (m.ensure_cum.total : Int)
                                - 1).fdiv ((d.high - d.low + 1 : Nat) : Int))
                            m.ensure_cum.symbol_count 0 m.ensure_cum.symbol_count)
                      / m.ensure_cum.total }),
       m.ensure_cum.increment
         (gsfvLoop (m.ensure_cum.cum.getD [])
           (((d.code - (d.low : Int) + 1) * (m.ensure_cum.total : Int) - 1).fdiv
             ((d.high - d.low + 1 : Nat) : Int))
           m.ensure_cum.symbol_count 0 m.ensure_cum.symbol_count)) := by
  unfold ArithmeticDecoder.decode_symbol FrequencyTable.get_total
    FrequencyTable.get_symbol_for_value FrequencyTable.get_low_high
  dsimp only
  simp only [ensure_cum_idem]

theorem decSymbolOf_eq (d : ArithmeticDecoder) (m : FrequencyTable) :
    decSymbolOf d m =
      gsfvLoop (m.ensure_cum.cum.getD [])
        (((d.code - (d.low : Int) + 1) * (m.ensure_cum.total : Int) - 1).fdiv
          ((d.high - d.low + 1 : Nat) : Int))
        m.ensure_cum.symbol_count 0 m.ensure_cum.symbol_count := by
  unfold decSymbolOf
  rw [decode_symbol_eq]

/-- `decode_symbol` in terms of the decoded symbol. -/
theorem decode_symbol_eq_sym (d : ArithmeticDecoder) (m : FrequencyTable) :
    d.decode_symbol m =
      ((decSymbolOf d m,
        decRenorm RENORM_FUEL
          { d with high := d.low + (d.high - d.low + 1)
                      * m.ensure_cum.cumAt (decSymbolOf d m + 1) / m.ensure_cum.total - 1
                   low := d.low + (d.high - d.low + 1)
                      * m.ensure_cum.cumAt (decSymbolOf d m) / m.ensure_cum.total }),
       m.ensure_cum.increment (decSymbolOf d m)) := by
  rw [decode_symbol_eq, decSymbolOf_eq]

/-- The decoded symbol is always a valid index, whatever the bitstream. -/
theorem decSymbolOf_lt (d : ArithmeticDecoder) (m : FrequencyTable)
    (hm : TableInv m) (hlen : 0 < m.freq.length) : decSymbolOf d m < m.freq.length := by
  rw [decSymbolOf_eq]
  have hsc : m.ensure_cum.symbol_count = m.freq.length := by
    rw [ensure_cum_symbol_count, ← hm.1]
  rw [hsc]
  exact (gsfvLoop_bounds _ _ _ 0 _ hlen).2

/-- The narrowed interval after `encode_symbol`, before renormalization,
satisfies the coder bounds; hence so does the renormalized state, and the
loop exits. -/
theorem encode_symbol_LH (e : ArithmeticEncoder) (m : FrequencyTable) (s : Nat)
    (he : CoderLH e.low e.high) (hm : TableInv m) (hs : s < m.freq.length)
    (ht : m.freq.sum ≤ e.high - e.low + 1) :
    CoderLH (e.encode_symbol m s).1.low (e.encode_symbol m s).1.high ∧
    RenormDone (e.encode_symbol m s).1.low (e.encode_symbol m s).1.high := by
  rw [encode_symbol_eq]
  dsimp only
  rw [ensured_cumAt m hm, ensured_cumAt m hm, ensured_total m hm]
  have htot : 0 < m.freq.sum :=
    Nat.lt_of_lt_of_le (by omega) (sum_ge_length _ hm.2.1)
  have hsl : (cumList m.freq).getD s 0 < (cumList m.freq).getD (s + 1) 0 :=
    cumList_strict _ hm.2.1 hs
  have hsh : (cumList m.freq).getD (s + 1) 0 ≤ m.freq.sum := by
    have h := cumList_mono m.freq (i := s + 1) (j := m.freq.length) hs (le_refl _)
    rwa [cumList_last] at h
  obtain ⟨hLH, -, -⟩ := narrow_LH e.low e.high _ _ _ he htot hsl hsh ht
  refine ⟨encRenorm_LH _ _ hLH, encRenorm_done _ _ hLH ?_⟩
  have h1 : 1 ≤ ({ e with
      high := e.low + (e.high - e.low + 1) * (cumList m.freq).getD (s + 1) 0
                / m.freq.sum - 1
      low := e.low + (e.high - e.low + 1) * (cumList m.freq).getD s 0
                / m.freq.sum } : ArithmeticEncoder).high
      - ({ e with
      high := e.low + (e.high - e.low + 1) * (cumList m.freq).getD (s + 1) 0
                / m.freq.sum - 1
      low := e.low + (e.high - e.low + 1) * (cumList m.freq).getD s 0
                / m.freq.sum } : ArithmeticEncoder).low + 1 := by omega
  calc HALF < 2 ^ RENORM_FUEL := by decide
    _ = 2 ^ RENORM_FUEL * 1 := (Nat.mul_one _).symm
    _ ≤ _ := Nat.mul_le_mul_left _ h1

/-- Same for `decode_symbol`; no assumption on `code` or the bitstream. -/
theorem decode_symbol_LH (d : ArithmeticDecoder) (m : FrequencyTable)
    (hd : CoderLH d.low d.high) (hm : TableInv m) (hlen : 0 < m.freq.length)
    (ht : m.freq.sum ≤ d.high - d.low + 1) :
    CoderLH (d.decode_symbol m).1.2.low (d.decode_symbol m).1.2.high ∧
    RenormDone (d.decode_symbol m).1.2.low (d.decode_symbol m).1.2.high := by
  have hs := decSymbolOf_lt d m hm hlen
  rw [decode_symbol_eq_sym]
  dsimp only
  rw [ensured_cumAt m hm, ensured_cumAt m hm, ensured_total m hm]
  have htot : 0 < m.freq.sum :=
    Nat.lt_of_lt_of_le (by omega) (sum_ge_length _ hm.2.1)
  have hsl : (cumList m.freq).getD (decSymbolOf d m) 0
      < (cumList m.freq).getD (decSymbolOf d m + 1) 0 :=
    cumList_strict _ hm.2.1 hs
  have hsh : (cumList m.freq).getD (decSymbolOf d m + 1) 0 ≤ m.freq.sum := by
    have h := cumList_mono m.freq (i := decSymbolOf d m + 1) (j := m.freq.length) hs
      (le_refl _)
    rwa [cumList_last] at h
  obtain ⟨hLH, -, -⟩ := narrow_LH d.low d.high _ _ _ hd htot hsl hsh ht
  refine ⟨decRenorm_LH _ _ hLH, decRenorm_done _ _ hLH ?_⟩
  have h1 : 1 ≤ ({ d with
      high := d.low + (d.high - d.low + 1)
                * (cumList m.freq).getD (decSymbolOf d m + 1) 0 / m.freq.sum - 1
      low := d.low + (d.high - d.low + 1)
                * (cumList m.freq).getD (decSymbolOf d m) 0 / m.freq.sum }
        : ArithmeticDecoder).high
      - ({ d with
      high := d.low + (d.high - d.low + 1)
                * (cumList m.freq).getD (decSymbolOf d m + 1) 0 / m.freq.sum - 1
      low := d.low + (d.high - d.low + 1)
                * (cumList m.freq).getD (decSymbolOf d m) 0 / m.freq.sum }
        : ArithmeticDecoder).low + 1 := by omega
  calc HALF < 2 ^ RENORM_FUEL := by decide
    _ = 2 ^ RENORM_FUEL * 1 := (Nat.mul_one _).symm
    _ ≤ _ := Nat.mul_le_mul_left _ h1

/-! ## Decoder initialization -/

theorem decInitStep_low (d : ArithmeticDecoder) : (decInitStep d).low = d.low := by
  unfold decInitStep
  exact read_bit_low d

theorem decInitStep_high (d : ArithmeticDecoder) : (decInitStep d).high = d.high := by
  unfold decInitStep
  exact read_bit_high d

theorem decInitStep_bitstream (d : ArithmeticDecoder) :
    (decInitStep d).bitstream = d.bitstream := by
  unfold decInitStep
  exact read_bit_bitstream d

theorem decInitFold_proj (l : List Nat) : ∀ d : ArithmeticDecoder,
    (l.foldl (fun d _ => decInitStep d) d).low = d.low ∧
    (l.foldl (fun d _ => decInitStep d) d).high = d.high ∧
    (l.foldl (fun d _ => decInitStep d) d).bitstream = d.bitstream := by
  induction l with
  | nil => intro d; exact ⟨rfl, rfl, rfl⟩
  | cons x t ih =>
    intro d
    simp only [List.foldl_cons]
    have h := ih (decInitStep d)
    rw [decInitStep_low, decInitStep_high, decInitStep_bitstream] at h
    exact h

theorem start_low (bits : List Nat) : (ArithmeticDecoder.start bits).low = 0 :=
  (decInitFold_proj _ _).1

theorem start_high (bits : List Nat) :
    (ArithmeticDecoder.start bits).high = FULL_RANGE - 1 :=
  (decInitFold_proj _ _).2.1

theorem start_bitstream (bits : List Nat) :
    (ArithmeticDecoder.start bits).bitstream = bits :=
  (decInitFold_proj _ _).2.2

/-! ## C7: the coder-state invariant -/

/-- C7: `0 ≤ low ≤ high ≤ 2^32 - 1` holds after initialization of both
coders and is preserved by every `encode_symbol`/`decode_symbol` call,
under the model invariant and `total ≤` the pre-renormalization interval
size.  (`0 ≤ low` is inherent: `low` is a `Nat`.) -/
theorem C7_coder_state_invariant :
    (CoderLH ArithmeticEncoder.init.low ArithmeticEncoder.init.high ∧
      ∀ bits : List Nat,
        CoderLH (ArithmeticDecoder.start bits).low (ArithmeticDecoder.start bits).high) ∧
    (∀ (e : ArithmeticEncoder) (m : FrequencyTable) (s : Nat),
      CoderLH e.low e.high → TableInv m → s < m.freq.length →
      m.freq.sum ≤ e.high - e.low + 1 →
      CoderLH (e.encode_symbol m s).1.low (e.encode_symbol m s).1.high) ∧
    (∀ (d : ArithmeticDecoder) (m : FrequencyTable),
      CoderLH d.low d.high → TableInv m → 0 < m.freq.length →
      m.freq.sum ≤ d.high - d.low + 1 →
      CoderLH (d.decode_symbol m).1.2.low (d.decode_symbol m).1.2.high) := by
  refine ⟨⟨by simp [CoderLH, ArithmeticEncoder.init, FULL_RANGE_eq], fun bits => ?_⟩,
    fun e m s he hm hs ht => (encode_symbol_LH e m s he hm hs ht).1,
    fun d m hd hm hlen ht => (decode_symbol_LH d m hd hm hlen ht).1⟩
  rw [CoderLH, start_low, start_high]
  simp [FULL_RANGE_eq]

set_option maxRecDepth 400000 in
/-- Witness for `C7_coder_state_invariant`: one encoder step and one
decoder step from the initial states with the fresh 511-symbol model. -/
theorem C7_coder_state_invariant_witness :
    CoderLH ((ArithmeticEncoder.init.encode_symbol
        (FrequencyTable.mk0 SYMBOL_COUNT) 0).1.low)
      ((ArithmeticEncoder.init.encode_symbol (FrequencyTable.mk0 SYMBOL_COUNT) 0).1.high)
    ∧ CoderLH (((ArithmeticDecoder.start [1, 0, 1]).decode_symbol
        (FrequencyTable.mk0 SYMBOL_COUNT)).1.2.low)
      (((ArithmeticDecoder.start [1, 0, 1]).decode_symbol
        (FrequencyTable.mk0 SYMBOL_COUNT)).1.2.high) := by
  constructor
  · exact C7_coder_state_invariant.2.1 _ _ 0 (by decide) (tableInv_mk0 _)
      (by decide) (by decide)
  · exact C7_coder_state_invariant.2.2 _ _ (by decide) (tableInv_mk0 _)
      (by decide) (by decide)

/-! ## C3: `decompress_image` is total and shape-correct -/

theorem setPx_length (g : List (List Pixel)) (y x : Nat) (v : Pixel) :
    (setPx g y x v).length = g.length :=
  List.length_set g y _

theorem rect_setPx (g : List (List Pixel)) (W y x : Nat) (v : Pixel)
    (h : Rect g W) : Rect (setPx g y x v) W := by
  rcases Nat.lt_or_ge y g.length with hy | hy
  · intro row hrow
    rcases List.mem_or_eq_of_mem_set hrow with hmem | heq
    · exact h row hmem
    · subst heq
      rw [List.length_set]
      have hmem : g.getD y [] ∈ g := by
        rw [List.getD_eq_getElem _ _ hy]
        exact List.getElem_mem _
      exact h _ hmem
  · unfold setPx
    rw [List.set_eq_of_length_le hy]
    exact h

theorem decodePixel_grid (st : DecPass) (yx : Nat × Nat) :
    ∃ v, (decodePixel st yx).grid = setPx st.grid yx.1 yx.2 v :=
  ⟨_, rfl⟩

theorem decodeFold_shape (idxs : List (Nat × Nat)) : ∀ st : DecPass,
    (idxs.foldl decodePixel st).grid.length = st.grid.length ∧
    ∀ W, Rect st.grid W → Rect (idxs.foldl decodePixel st).grid W := by
  induction idxs with
  | nil => intro st; exact ⟨rfl, fun _ h => h⟩
  | cons yx t ih =>
    intro st
    simp only [List.foldl_cons]
    obtain ⟨v, hv⟩ := decodePixel_grid st yx
    obtain ⟨ih1, ih2⟩ := ih (decodePixel st yx)
    constructor
    · rw [ih1, hv, setPx_length]
    · intro W hW
      exact ih2 W (by rw [hv]; exact rect_setPx _ _ _ _ _ hW)

/-- C3: for every finite bit list (empty or truncated included) and all
dimensions, `decompress_image` returns a grid of exactly `height` rows of
`width` pixels each, and `_read_bit` past the end of the stream returns 0
and leaves the decoder state unchanged; the embedding is total, so no
error is ever raised. -/
theorem C3_decompress_total (bits : List Nat) (W H : Nat) :
    ((decompress_image bits W H).length = H ∧
      ∀ row ∈ decompress_image bits W H, row.length = W) ∧
    (∀ d : ArithmeticDecoder, d.bitstream.length ≤ d.pos → d.read_bit = (0, d)) := by
  constructor
  · unfold decompress_image decompressRun
    obtain ⟨h1, h2⟩ := decodeFold_shape (pixelIndices H W)
      { dec := ArithmeticDecoder.start bits
        model := FrequencyTable.mk0 SYMBOL_COUNT
        grid := List.replicate H (List.replicate W ((0:Int),(0:Int),(0:Int))) }
    constructor
    · rw [h1]
      simp
    · refine h2 W ?_
      intro row hrow
      rw [List.eq_of_mem_replicate hrow]
      simp
  · intro d hd
    unfold ArithmeticDecoder.read_bit
    rw [if_pos hd]

/-- Witness for `C3_decompress_total`: a truncated 3-bit stream decoded as
a 2×2 image, and a concrete exhausted decoder state. -/
theorem C3_decompress_total_witness :
    ((decompress_image [1, 0, 1] 2 2).length = 2 ∧
      ∀ row ∈ decompress_image [1, 0, 1] 2 2, row.length = 2) ∧
    ({ bitstream := [1, 0], pos := 5, low := 0, high := 7,
        code := 3 } : ArithmeticDecoder).read_bit
      = (0, { bitstream := [1, 0], pos := 5, low := 0, high := 7, code := 3 }) :=
  ⟨(C3_decompress_total [1, 0, 1] 2 2).1,
   (C3_decompress_total [1, 0, 1] 2 2).2 _ (by decide)⟩

/-! ## C9: the persisted compressed-file layout -/

theorem lor_bit_le_one (a b : Nat) (hb : b ≤ 1) : (a <<< 1) ||| b = 2 * a + b := by
  rcases Nat.le_one_iff_eq_zero_or_eq_one.1 hb with rfl | rfl
  · rw [Nat.shiftLeft_eq]
    simp [Nat.mul_comm]
  · rw [Nat.shiftLeft_eq]
    have h := Nat.lor_bit false a true 0
    simpa [Nat.bit, Nat.mul_comm] using h

theorem bytes_to_bits_append (u v : List Nat) :
    bytes_to_bits (u ++ v) = bytes_to_bits u ++ bytes_to_bits v := by
  simp [bytes_to_bits]

/-- Unpacking one byte given as its MSB-first bit polynomial recovers the
eight bits. -/
theorem unpack_single (b1 b2 b3 b4 b5 b6 b7 b8 : Nat)
    (h1 : b1 ≤ 1) (h2 : b2 ≤ 1) (h3 : b3 ≤ 1) (h4 : b4 ≤ 1)
    (h5 : b5 ≤ 1) (h6 : b6 ≤ 1) (h7 : b7 ≤ 1) (h8 : b8 ≤ 1) :
    bytes_to_bits [128 * b1 + 64 * b2 + 32 * b3 + 16 * b4 + 8 * b5 + 4 * b6 + 2 * b7 + b8]
      = [b1, b2, b3, b4, b5, b6, b7, b8] := by
  unfold bytes_to_bits
  rw [show List.range 8 = [0, 1, 2, 3, 4, 5, 6, 7] from rfl]
  simp only [List.flatMap_cons, List.flatMap_nil, List.map_cons, List.map_nil,
    List.append_nil]
  simp only [Nat.shiftRight_eq_div_pow, Nat.and_one_is_mod]
  norm_num
  omega

theorem pack_unpack_aux : ∀ n : Nat, ∀ bits : List Nat, bits.length ≤ n →
    (∀ b ∈ bits, b ≤ 1) → ∀ out : List Nat,
    bytes_to_bits (b2bAux out 0 0 bits)
      = bytes_to_bits out ++ (bits ++ List.replicate ((8 - bits.length % 8) % 8) 0) := by
  intro n
  induction n using Nat.strong_induction_on with
  | _ n ih =>
    intro bits hlen h out
    rcases bits with _ | ⟨b1, _ | ⟨b2, _ | ⟨b3, _ | ⟨b4, _ | ⟨b5, _ | ⟨b6, _ | ⟨b7, _ | ⟨b8, rest⟩⟩⟩⟩⟩⟩⟩⟩
    · simp [show b2bAux out 0 0 [] = out from rfl]
    · -- 1 leftover bit(s): the partial byte is zero-padded low
      have hb1 : b1 ≤ 1 := h b1 (by simp)
      have e : b2bAux out 0 0 [b1]
          = out ++ [(((0) <<< 1 ||| b1)) <<< 7] := rfl
      have hval : (((0) <<< 1 ||| b1)) <<< 7
          = 128 * b1 + 64 * 0 + 32 * 0 + 16 * 0 + 8 * 0 + 4 * 0 + 2 * 0 + 0 := by
        rw [lor_bit_le_one _ b1 hb1, Nat.shiftLeft_eq,
          show (2:Nat) ^ 7 = 128 from rfl]
        omega
      rw [e, bytes_to_bits_append, hval,
        unpack_single _ _ _ _ _ _ _ _ hb1 (by omega) (by omega) (by omega) (by omega) (by omega) (by omega) (by omega)]
      simp
    · -- 2 leftover bit(s): the partial byte is zero-padded low
      have hb1 : b1 ≤ 1 := h b1 (by simp)
      have hb2 : b2 ≤ 1 := h b2 (by simp)
      have e : b2bAux out 0 0 [b1, b2]
          = out ++ [(((((0) <<< 1 ||| b1)) <<< 1 ||| b2)) <<< 6] := rfl
      have hval : (((((0) <<< 1 ||| b1)) <<< 1 ||| b2)) <<< 6
          = 128 * b1 + 64 * b2 + 32 * 0 + 16 * 0 + 8 * 0 + 4 * 0 + 2 * 0 + 0 := by
        rw [lor_bit_le_one _ b1 hb1, lor_bit_le_one _ b2 hb2, Nat.shiftLeft_eq,
          show (2:Nat) ^ 6 = 64 from rfl]
        omega
      rw [e, bytes_to_bits_append, hval,
        unpack_single _ _ _ _ _ _ _ _ hb1 hb2 (by omega) (by omega) (by omega) (by omega) (by omega) (by omega)]
      simp
    · -- 3 leftover bit(s): the partial byte is zero-padded low
      have hb1 : b1 ≤ 1 := h b1 (by simp)
      have hb2 : b2 ≤ 1 := h b2 (by simp)
      have hb3 : b3 ≤ 1 := h b3 (by simp)
      have e : b2bAux out 0 0 [b1, b2, b3]
          = out ++ [(((((((0) <<< 1 ||| b1)) <<< 1 ||| b2)) <<< 1 ||| b3)) <<< 5] := rfl
      have hval : (((((((0) <<< 1 ||| b1)) <<< 1 ||| b2)) <<< 1 ||| b3)) <<< 5
          = 128 * b1 + 64 * b2 + 32 * b3 + 16 * 0 + 8 * 0 + 4 * 0 + 2 * 0 + 0 := by
        rw [lor_bit_le_one _ b1 hb1, lor_bit_le_one _ b2 hb2, lor_bit_le_one _ b3 hb3, Nat.shiftLeft_eq,
          show (2:Nat) ^ 5 = 32 from rfl]
        omega
      rw [e, bytes_to_bits_append, hval,
        unpack_single _ _ _ _ _ _ _ _ hb1 hb2 hb3 (by omega) (by omega) (by omega) (by omega) (by omega)]
      simp
    · -- 4 leftover bit(s): the partial byte is zero-padded low
      have hb1 : b1 ≤ 1 := h b1 (by simp)
      have hb2 : b2 ≤ 1 := h b2 (by simp)
      have hb3 : b3 ≤ 1 := h b3 (by simp)
      have hb4 : b4 ≤ 1 := h b4 (by simp)
      have e : b2bAux out 0 0 [b1, b2, b3, b4]
          = out ++ [(((((((((0) <<< 1 ||| b1)) <<< 1 ||| b2)) <<< 1 ||| b3)) <<< 1 ||| b4)) <<< 4] := rfl
      have hval : (((((((((0) <<< 1 ||| b1)) <<< 1 ||| b2)) <<< 1 ||| b3)) <<< 1 ||| b4)) <<< 4
          = 128 * b1 + 64 * b2 + 32 * b3 + 16 * b4 + 8 * 0 + 4 * 0 + 2 * 0 + 0 := by
        rw [lor_bit_le_one _ b1 hb1, lor_bit_le_one _ b2 hb2, lor_bit_le_one _ b3 hb3, lor_bit_le_one _ b4 hb4, Nat.shiftLeft_eq,
          show (2:Nat) ^ 4 = 16 from rfl]
        omega
      rw [e, bytes_to_bits_append, hval,
        unpack_single _ _ _ _ _ _ _ _ hb1 hb2 hb3 hb4 (by omega) (by omega) (by omega) (by omega)]
      simp
    · -- 5 leftover bit(s): the partial byte is zero-padded low
      have hb1 : b1 ≤ 1 := h b1 (by simp)
      have hb2 : b2 ≤ 1 := h b2 (by simp)
      have hb3 : b3 ≤ 1 := h b3 (by simp)
      have hb4 : b4 ≤ 1 := h b4 (by simp)
      have hb5 : b5 ≤ 1 := h b5 (by simp)
      have e : b2bAux out 0 0 [b1, b2, b3, b4, b5]
          = out ++ [(((((((((((0) <<< 1 ||| b1)) <<< 1 ||| b2)) <<< 1 ||| b3)) <<< 1 ||| b4)) <<< 1 ||| b5)) <<< 3] := rfl
      have hval : (((((((((((0) <<< 1 ||| b1)) <<< 1 ||| b2)) <<< 1 ||| b3)) <<< 1 ||| b4)) <<< 1 ||| b5)) <<< 3
          = 128 * b1 + 64 * b2 + 32 * b3 + 16 * b4 + 8 * b5 + 4 * 0 + 2 * 0 + 0 := by
        rw [lor_bit_le_one _ b1 hb1, lor_bit_le_one _ b2 hb2, lor_bit_le_one _ b3 hb3, lor_bit_le_one _ b4 hb4, lor_bit_le_one _ b5 hb5, Nat.shiftLeft_eq,
          show (2:Nat) ^ 3 = 8 from rfl]
        omega
      rw [e, bytes_to_bits_append, hval,
        unpack_single _ _ _ _ _ _ _ _ hb1 hb2 hb3 hb4 hb5 (by omega) (by omega) (by omega)]
      simp
    · -- 6 leftover bit(s): the partial byte is zero-padded low
      have hb1 : b1 ≤ 1 := h b1 (by simp)
      have hb2 : b2 ≤ 1 := h b2 (by simp)
      have hb3 : b3 ≤ 1 := h b3 (by simp)
      have hb4 : b4 ≤ 1 := h b4 (by simp)
      have hb5 : b5 ≤ 1 := h b5 (by simp)
      have hb6 : b6 ≤ 1 := h b6 (by simp)
      have e : b2bAux out 0 0 [b1, b2, b3, b4, b5, b6]
          = out ++ [(((((((((((((0) <<< 1 ||| b1)) <<< 1 ||| b2)) <<< 1 ||| b3)) <<< 1 ||| b4)) <<< 1 ||| b5)) <<< 1 ||| b6)) <<< 2] := rfl
      have hval : (((((((((((((0) <<< 1 ||| b1)) <<< 1 ||| b2)) <<< 1 ||| b3)) <<< 1 ||| b4)) <<< 1 ||| b5)) <<< 1 ||| b6)) <<< 2
          = 128 * b1 + 64 * b2 + 32 * b3 + 16 * b4 + 8 * b5 + 4 * b6 + 2 * 0 + 0 := by
        rw [lor_bit_le_one _ b1 hb1, lor_bit_le_one _ b2 hb2, lor_bit_le_one _ b3 hb3, lor_bit_le_one _ b4 hb4, lor_bit_le_one _ b5 hb5, lor_bit_le_one _ b6 hb6, Nat.shiftLeft_eq,
          show (2:Nat) ^ 2 = 4 from rfl]
        omega
      rw [e, bytes_to_bits_append, hval,
        unpack_single _ _ _ _ _ _ _ _ hb1 hb2 hb3 hb4 hb5 hb6 (by omega) (by omega)]
      simp
    · -- 7 leftover bit(s): the partial byte is zero-padded low
      have hb1 : b1 ≤ 1 := h b1 (by simp)
      have hb2 : b2 ≤ 1 := h b2 (by simp)
      have hb3 : b3 ≤ 1 := h b3 (by simp)
      have hb4 : b4 ≤ 1 := h b4 (by simp)
      have hb5 : b5 ≤ 1 := h b5 (by simp)
      have hb6 : b6 ≤ 1 := h b6 (by simp)
      have hb7 : b7 ≤ 1 := h b7 (by simp)
      have e : b2bAux out 0 0 [b1, b2, b3, b4, b5, b6, b7]
          = out ++ [(((((((((((((((0) <<< 1 ||| b1)) <<< 1 ||| b2)) <<< 1 ||| b3)) <<< 1 ||| b4)) <<< 1 ||| b5)) <<< 1 ||| b6)) <<< 1 ||| b7)) <<< 1] := rfl
      have hval : (((((((((((((((0) <<< 1 ||| b1)) <<< 1 ||| b2)) <<< 1 ||| b3)) <<< 1 ||| b4)) <<< 1 ||| b5)) <<< 1 ||| b6)) <<< 1 ||| b7)) <<< 1
          = 128 * b1 + 64 * b2 + 32 * b3 + 16 * b4 + 8 * b5 + 4 * b6 + 2 * b7 + 0 := by
        rw [lor_bit_le_one _ b1 hb1, lor_bit_le_one _ b2 hb2, lor_bit_le_one _ b3 hb3, lor_bit_le_one _ b4 hb4, lor_bit_le_one _ b5 hb5, lor_bit_le_one _ b6 hb6, lor_bit_le_one _ b7 hb7, Nat.shiftLeft_eq,
          show (2:Nat) ^ 1 = 2 from rfl]
        omega
      rw [e, bytes_to_bits_append, hval,
        unpack_single _ _ _ _ _ _ _ _ hb1 hb2 hb3 hb4 hb5 hb6 hb7 (by omega)]
      simp
    · -- a full byte followed by the remaining bits
      have hb1 : b1 ≤ 1 := h b1 (by simp)
      have hb2 : b2 ≤ 1 := h b2 (by simp)
      have hb3 : b3 ≤ 1 := h b3 (by simp)
      have hb4 : b4 ≤ 1 := h b4 (by simp)
      have hb5 : b5 ≤ 1 := h b5 (by simp)
      have hb6 : b6 ≤ 1 := h b6 (by simp)
      have hb7 : b7 ≤ 1 := h b7 (by simp)
      have hb8 : b8 ≤ 1 := h b8 (by simp)
      have e : b2bAux out 0 0 (b1 :: b2 :: b3 :: b4 :: b5 :: b6 :: b7 :: b8 :: rest)
          = b2bAux (out ++ [((((((((((((((((0) <<< 1 ||| b1)) <<< 1 ||| b2)) <<< 1 ||| b3)) <<< 1 ||| b4)) <<< 1 ||| b5)) <<< 1 ||| b6)) <<< 1 ||| b7)) <<< 1 ||| b8)]) 0 0 rest := rfl
      have hval : ((((((((((((((((0) <<< 1 ||| b1)) <<< 1 ||| b2)) <<< 1 ||| b3)) <<< 1 ||| b4)) <<< 1 ||| b5)) <<< 1 ||| b6)) <<< 1 ||| b7)) <<< 1 ||| b8)
          = 128 * b1 + 64 * b2 + 32 * b3 + 16 * b4 + 8 * b5 + 4 * b6 + 2 * b7 + b8 := by
        rw [lor_bit_le_one _ b1 hb1, lor_bit_le_one _ b2 hb2, lor_bit_le_one _ b3 hb3, lor_bit_le_one _ b4 hb4, lor_bit_le_one _ b5 hb5, lor_bit_le_one _ b6 hb6, lor_bit_le_one _ b7 hb7, lor_bit_le_one _ b8 hb8]
        omega
      have hlen8 : rest.length + 8 ≤ n := by simpa using hlen
      rw [e, hval, ih (n - 8) (by omega) rest (by omega)
        (fun b hb => h b (by simp [hb])) _]
      rw [bytes_to_bits_append,
        unpack_single b1 b2 b3 b4 b5 b6 b7 b8 hb1 hb2 hb3 hb4 hb5 hb6 hb7 hb8]
      have hmod : (8 - (rest.length + 8) % 8) % 8 = (8 - rest.length % 8) % 8 := by
        omega
      simp [hmod, List.append_assoc]

theorem length_toBytes4LE (n : Nat) : (toBytes4LE n).length = 4 := rfl

theorem fromBytes_toBytes (n : Nat) (hn : n < 4294967296) :
    fromBytesLE (toBytes4LE n) = n := by
  unfold fromBytesLE toBytes4LE
  simp only [List.foldr]
  omega

/-- C9: the persisted file is byte-exact — 4-byte little-endian width,
4-byte little-endian height, then the bit list packed MSB-first with the
final partial byte zero-padded low — and the loader recovers the
dimensions and the bit list extended with that zero padding to a multiple
of 8 bits. -/
theorem C9_persistence (width height : Nat) (bits : List Nat)
    (hw : width < 4294967296) (hh : height < 4294967296)
    (hb : ∀ b ∈ bits, b ≤ 1) :
    saveCompressed width height bits
        = toBytes4LE width ++ toBytes4LE height ++ bits_to_bytes bits ∧
    openCompressed (saveCompressed width height bits)
      = (width, height, bits ++ List.replicate ((8 - bits.length % 8) % 8) 0) := by
  refine ⟨rfl, ?_⟩
  unfold openCompressed saveCompressed
  have h1 : (toBytes4LE width ++ (toBytes4LE height ++ bits_to_bytes bits)).take 4
      = toBytes4LE width := List.take_left' (length_toBytes4LE _)
  have h2 : (toBytes4LE width ++ (toBytes4LE height ++ bits_to_bytes bits)).drop 4
      = toBytes4LE height ++ bits_to_bytes bits := List.drop_left' (length_toBytes4LE _)
  have h3 : (toBytes4LE height ++ bits_to_bytes bits).take 4 = toBytes4LE height :=
    List.take_left' (length_toBytes4LE _)
  have h4 : (toBytes4LE width ++ (toBytes4LE height ++ bits_to_bytes bits)).drop 8
      = bits_to_bytes bits := by
    rw [← List.append_assoc]
    refine List.drop_left' ?_
    simp [length_toBytes4LE]
  rw [List.append_assoc]
  rw [h1, h2, h3, h4, fromBytes_toBytes width hw, fromBytes_toBytes height hh]
  have h5 := pack_unpack_aux bits.length bits (le_refl _) hb []
  unfold bits_to_bytes
  rw [h5]
  simp [bytes_to_bits]

/-- Witness for `C9_persistence` at `width = 258`, `height = 1` and the
3-bit stream `[1, 0, 1]` (padded with five 0 bits). -/
theorem C9_persistence_witness :
    openCompressed (saveCompressed 258 1 [1, 0, 1])
      = (258, 1, [1, 0, 1] ++ List.replicate ((8 - [1, 0, 1].length % 8) % 8) 0) :=
  (C9_persistence 258 1 [1, 0, 1] (by decide) (by decide) (by decide)).2

/-! ## C8: predictor outputs and residual bounds during compression -/

theorem getPx_in_range (g : List (List Pixel)) (hin : GridInRange g) (y x : Nat) :
    PixelInRange (getPx g y x) := by
  unfold getPx
  rcases Nat.lt_or_ge y g.length with hy | hy
  · have hrow : g.getD y [] ∈ g := by
      rw [List.getD_eq_getElem _ _ hy]
      exact List.getElem_mem _
    rcases Nat.lt_or_ge x (g.getD y []).length with hx | hx
    · have hmem : (g.getD y []).getD x ((0:Int),(0:Int),(0:Int)) ∈ g.getD y [] := by
        rw [List.getD_eq_getElem _ _ hx]
        exact List.getElem_mem _
      exact hin _ hrow _ hmem
    · rw [List.getD_eq_default _ _ hx]
      decide
  · rw [List.getD_eq_default _ _ hy,
      List.getD_eq_default _ _ (by simp : ([] : List Pixel).length ≤ x)]
    decide

theorem pred_in_range (pred : List (List Pixel)) (hpred : GridInRange pred)
    (x y : Nat) : PixelInRange (loco_predictor x y pred) := by
  unfold loco_predictor
  split
  · decide
  · split
    · exact getPx_in_range pred hpred _ _
    · split
      · exact getPx_in_range pred hpred _ _
      · have hL := getPx_in_range pred hpred y (x - 1)
        have hT := getPx_in_range pred hpred (y - 1) x
        unfold PixelInRange at hL hT ⊢
        unfold medpred
        dsimp only
        omega

theorem setPx_in_range (g : List (List Pixel)) (hin : GridInRange g) (y x : Nat)
    (v : Pixel) (hv : PixelInRange v) : GridInRange (setPx g y x v) := by
  intro row hrow
  rcases List.mem_or_eq_of_mem_set hrow with hmem | heq
  · exact hin row hmem
  · subst heq
    intro p hp
    rcases List.mem_or_eq_of_mem_set hp with hmem | heq
    · rcases Nat.lt_or_ge y g.length with hy | hy
      · have hrow' : g.getD y [] ∈ g := by
          rw [List.getD_eq_getElem _ _ hy]
          exact List.getElem_mem _
        exact hin _ hrow' _ hmem
      · rw [List.getD_eq_default _ _ hy] at hmem
        simp at hmem
    · subst heq
      exact hv

theorem zeroGrid_in_range (H W : Nat) : GridInRange (zeroGrid H W) := by
  intro row hrow p hp
  rw [List.eq_of_mem_replicate hrow] at hp
  rw [List.eq_of_mem_replicate hp]
  decide

/-- The components of one `compress_image` pixel step, read off the
definitions. -/
theorem encodePixel_parts (pm : List (List Pixel)) (st : EncPass) (yx : Nat × Nat) :
    (encodePixel pm st yx).enc
        = (encodeAll (st.enc, st.model) (pixelSyms pm st.pred yx)).1 ∧
    (encodePixel pm st yx).model
        = (encodeAll (st.enc, st.model) (pixelSyms pm st.pred yx)).2 ∧
    (encodePixel pm st yx).pred = predNext pm st.pred yx :=
  ⟨rfl, rfl, rfl⟩

theorem encodeAll_append (em : ArithmeticEncoder × FrequencyTable) (a b : List Nat) :
    encodeAll em (a ++ b) = encodeAll (encodeAll em a) b := by
  unfold encodeAll
  exact List.foldl_append _ _ _ _

/-- The `compress_image` scan factors into the symbol stream and the
causal-buffer fold. -/
theorem compressRun_factor (pm : List (List Pixel)) :
    ∀ (idxs : List (Nat × Nat)) (st : EncPass),
    (idxs.foldl (encodePixel pm) st).enc
        = (encodeAll (st.enc, st.model) (symsFrom pm idxs st.pred)).1 ∧
    (idxs.foldl (encodePixel pm) st).model
        = (encodeAll (st.enc, st.model) (symsFrom pm idxs st.pred)).2 ∧
    (idxs.foldl (encodePixel pm) st).pred = idxs.foldl (predNext pm) st.pred := by
  intro idxs
  induction idxs with
  | nil => intro st; exact ⟨rfl, rfl, rfl⟩
  | cons yx t ih =>
    intro st
    obtain ⟨ih1, ih2, ih3⟩ := ih (encodePixel pm st yx)
    obtain ⟨hp1, hp2, hp3⟩ := encodePixel_parts pm st yx
    have hpair : ((encodePixel pm st yx).enc, (encodePixel pm st yx).model)
        = encodeAll (st.enc, st.model) (pixelSyms pm st.pred yx) := by
      rw [hp1, hp2]
    simp only [List.foldl_cons, symsFrom]
    refine ⟨?_, ?_, ?_⟩
    · rw [ih1, hpair, hp3, encodeAll_append]
    · rw [ih2, hpair, hp3, encodeAll_append]
    · rw [ih3, hp3]

/-- Predictor outputs and raw residuals stay bounded throughout a scan
over an in-range image with an in-range causal buffer. -/
theorem traces_bounded (pm : List (List Pixel)) (hin : GridInRange pm) :
    ∀ (idxs : List (Nat × Nat)) (pred : List (List Pixel)), GridInRange pred →
    (∀ p ∈ predsFrom pm idxs pred, PixelInRange p) ∧
    (∀ d ∈ rawsFrom pm idxs pred, 0 ≤ d ∧ d ≤ 510) := by
  intro idxs
  induction idxs with
  | nil =>
    intro pred _
    constructor <;> intro z hz <;> simp [predsFrom, rawsFrom] at hz
  | cons yx t ih =>
    intro pred hpred
    have hp := pred_in_range pred hpred yx.2 yx.1
    have ha := getPx_in_range pm hin yx.1 yx.2
    have hnext : GridInRange (predNext pm pred yx) :=
      setPx_in_range pred hpred _ _ _ ha
    obtain ⟨ih1, ih2⟩ := ih (predNext pm pred yx) hnext
    constructor
    · intro p hp'
      rw [predsFrom] at hp'
      rcases List.mem_cons.1 hp' with heq | hmem
      · subst heq; exact hp
      · exact ih1 p hmem
    · intro d hd
      rw [rawsFrom] at hd
      rcases List.mem_append.1 hd with hmem | hmem
      · unfold pixelRaws at hmem
        unfold PixelInRange at hp ha
        simp only [List.mem_cons, List.not_mem_nil, or_false] at hmem
        rcases hmem with h | h | h <;> subst h <;> omega
      · exact ih2 d hmem

/-- Under the residual bounds, the clamped symbol stream is just the raw
stream cast to `Nat`. -/
theorem symsFrom_toNat (pm : List (List Pixel)) :
    ∀ (idxs : List (Nat × Nat)) (pred : List (List Pixel)),
    (∀ d ∈ rawsFrom pm idxs pred, 0 ≤ d ∧ d ≤ 510) →
    symsFrom pm idxs pred = (rawsFrom pm idxs pred).map Int.toNat := by
  intro idxs
  induction idxs with
  | nil => intro pred _; rfl
  | cons yx t ih =>
    intro pred hb
    rw [symsFrom, rawsFrom, List.map_append]
    rw [rawsFrom] at hb
    congr 1
    · unfold pixelSyms
      refine List.map_congr_left (fun d hd => ?_)
      have := hb d (List.mem_append.2 (Or.inl hd))
      unfold clampResidual MAX_RESIDUAL
      congr 1
      omega
    · exact ih (predNext pm pred yx) (fun d hd => hb d (List.mem_append.2 (Or.inr hd)))

/-- C8: during `compress_image` on an in-range grid, every predictor
output lies in `[0, 255]`, every raw residual `actual - predicted + 255`
already lies in `[0, 510]`, the defensive clamp is the identity on every
encoded symbol, and the symbol stream the encoder consumes is exactly the
raw residual stream. -/
theorem C8_residuals_in_range (pm : List (List Pixel)) (W : Nat)
    (hrect : Rect pm W) (hin : GridInRange pm) :
    (∀ p ∈ predTrace pm W, PixelInRange p) ∧
    (∀ d ∈ rawTrace pm W, 0 ≤ d ∧ d ≤ 510) ∧
    ((rawTrace pm W).map (fun d => max 0 (min 510 d)) = rawTrace pm W) ∧
    (symTrace pm W = (rawTrace pm W).map Int.toNat) ∧
    (pm ≠ [] → compress_image pm
      = some ((encodeAll (ArithmeticEncoder.init, FrequencyTable.mk0 SYMBOL_COUNT)
          (symTrace pm W)).1.finish)) := by
  obtain ⟨h1, h2⟩ := traces_bounded pm hin (pixelIndices pm.length W)
    (zeroGrid pm.length W) (zeroGrid_in_range _ _)
  refine ⟨h1, h2, ?_, symsFrom_toNat pm _ _ h2, ?_⟩
  · have : ∀ d ∈ rawTrace pm W, (fun d => max 0 (min 510 d)) d = id d := by
      intro d hd
      have := h2 d hd
      simp only [id]
      omega
    rw [List.map_congr_left this, List.map_id]
  · intro hpm
    cases pm with
    | nil => exact absurd rfl hpm
    | cons row0 rest =>
      have hW : row0.length = W := hrect row0 (by simp)
      show some ((compressRun (row0 :: rest) row0.length).enc.finish) = _
      rw [hW]
      have hfac := (compressRun_factor (row0 :: rest) (pixelIndices (row0 :: rest).length W)
        { enc := ArithmeticEncoder.init
          model := FrequencyTable.mk0 SYMBOL_COUNT
          pred := List.replicate (row0 :: rest).length
            (List.replicate W ((0:Int),(0:Int),(0:Int))) }).1
      unfold compressRun
      rw [hfac]
      rfl

/-- Witness for `C8_residuals_in_range` on a concrete 1×2 image. -/
theorem C8_residuals_in_range_witness :
    (∀ p ∈ predTrace [[((0:Int),(0:Int),(0:Int)), ((255:Int),(10:Int),(20:Int))]] 2,
        PixelInRange p) ∧
    (∀ d ∈ rawTrace [[((0:Int),(0:Int),(0:Int)), ((255:Int),(10:Int),(20:Int))]] 2,
        0 ≤ d ∧ d ≤ 510) :=
  have h := C8_residuals_in_range
    [[((0:Int),(0:Int),(0:Int)), ((255:Int),(10:Int),(20:Int))]] 2
    (by decide) (by decide)
  ⟨h.1, h.2.1⟩

/-! ## Arithmetic of `bitsVal` and `phiVal` -/

theorem bitsVal_nil : bitsVal [] = 0 := rfl

theorem bitsVal_cons (b : Nat) (t : List Nat) :
    bitsVal (b :: t) = ((b : ℚ) + bitsVal t) / 2 := rfl

theorem bitsVal_nonneg (l : List Nat) : 0 ≤ bitsVal l := by
  induction l with
  | nil => exact le_refl 0
  | cons b t ih =>
    rw [bitsVal_cons]
    positivity

theorem bitsVal_lt_one (l : List Nat) (h : ∀ b ∈ l, b ≤ 1) : bitsVal l < 1 := by
  induction l with
  | nil => norm_num [bitsVal_nil]
  | cons b t ih =>
    rw [bitsVal_cons]
    have hb : (b : ℚ) ≤ 1 := by
      have := h b (by simp)
      exact_mod_cast this
    have ht := ih (fun x hx => h x (by simp [hx]))
    linarith

theorem bitsVal_append (u v : List Nat) :
    bitsVal (u ++ v) = bitsVal u + bitsVal v / 2 ^ u.length := by
  induction u with
  | nil => simp [bitsVal_nil]
  | cons b t ih =>
    have h2 : (2:ℚ) ^ t.length ≠ 0 := pow_ne_zero _ two_ne_zero
    simp only [List.cons_append, bitsVal_cons, ih, List.length_cons]
    field_simp
    ring

theorem bitsVal_replicate_zero (n : Nat) : bitsVal (List.replicate n 0) = 0 := by
  induction n with
  | zero => rfl
  | succ k ih => simp [List.replicate_succ, bitsVal_cons, ih]

theorem bitsVal_replicate_one (n : Nat) :
    bitsVal (List.replicate n 1) = 1 - 1 / 2 ^ n := by
  induction n with
  | zero => norm_num [bitsVal_nil]
  | succ k ih =>
    have h2 : (2:ℚ) ^ k ≠ 0 := pow_ne_zero _ two_ne_zero
    rw [List.replicate_succ, bitsVal_cons, ih]
    field_simp
    ring

theorem bitsVal_drop_step (l : List Nat) (k : Nat) :
    bitsVal (l.drop k) = ((l.getD k 0 : ℚ) + bitsVal (l.drop (k + 1))) / 2 := by
  rcases Nat.lt_or_ge k l.length with hk | hk
  · rw [List.drop_eq_getElem_cons hk, bitsVal_cons]
    congr 2
    rw [List.getD_eq_getElem _ _ hk]
  · rw [List.drop_eq_nil_of_le hk, List.drop_eq_nil_of_le (by omega),
      List.getD_eq_default _ _ hk]
    norm_num [bitsVal_nil]

theorem phi_E1 (p : Nat) (u : List Nat) :
    phiVal p (0 :: (List.replicate p 1 ++ u)) = phiVal 0 u / 2 := by
  unfold phiVal
  have h2 : (2:ℚ) ^ p ≠ 0 := pow_ne_zero _ two_ne_zero
  rw [bitsVal_cons, bitsVal_append, bitsVal_replicate_one, List.length_replicate]
  simp only [pow_add]
  push_cast
  field_simp
  ring

theorem phi_E2 (p : Nat) (u : List Nat) :
    phiVal p (1 :: (List.replicate p 0 ++ u)) = (phiVal 0 u + 2 ^ 32) / 2 := by
  unfold phiVal
  have h2 : (2:ℚ) ^ p ≠ 0 := pow_ne_zero _ two_ne_zero
  rw [bitsVal_cons, bitsVal_append, bitsVal_replicate_zero, List.length_replicate]
  simp only [pow_add]
  push_cast
  field_simp
  ring

theorem phi_E3 (p : Nat) (u : List Nat) :
    phiVal p u = (phiVal (p + 1) u + 2 ^ 31) / 2 := by
  unfold phiVal
  rw [show 31 + (p + 1) = 32 + p by omega, show 32 + (p + 1) = 33 + p by omega]
  simp only [pow_add]
  ring

/-- The flush value when `low < FIRST_QTR`: bit 0 then `p + 1` one-bits
land the stream exactly on the first-quarter mark. -/
theorem phi_finish_zero (p : Nat) :
    phiVal p (0 :: List.replicate (p + 1) 1) = 2 ^ 30 := by
  have h : (0 : Nat) :: List.replicate (p + 1) 1
      = 0 :: (List.replicate p 1 ++ [1]) := by
    rw [← List.replicate_succ' p 1]
  rw [h, phi_E1]
  unfold phiVal
  rw [show bitsVal [1] = 1 / 2 from by norm_num [bitsVal_cons, bitsVal_nil]]
  norm_num

/-- The flush value when `low ≥ FIRST_QTR`: bit 1 then `p + 1` zero-bits
land the stream exactly on the halfway mark. -/
theorem phi_finish_one (p : Nat) :
    phiVal p (1 :: List.replicate (p + 1) 0) = 2 ^ 31 := by
  have h : (1 : Nat) :: List.replicate (p + 1) 0
      = 1 :: (List.replicate p 0 ++ [0]) := by
    rw [← List.replicate_succ' p 0]
  rw [h, phi_E2]
  unfold phiVal
  rw [show bitsVal [0] = 0 from by norm_num [bitsVal_cons, bitsVal_nil]]
  norm_num

/-! ## Decoder synchronization steps -/

theorem drop_append_of_le (u v : List Nat) (n : Nat) (h : u.length ≤ n) :
    (u ++ v).drop n = v.drop (n - u.length) := by
  have hd : (u ++ v).drop (u.length + (n - u.length)) = v.drop (n - u.length) :=
    List.drop_append (n - u.length)
  rw [← hd]
  congr 1
  omega

theorem read_bit_val (d : ArithmeticDecoder) :
    d.read_bit.1 = d.bitstream.getD d.pos 0 := by
  unfold ArithmeticDecoder.read_bit
  split
  · rename_i h
    rw [List.getD_eq_default _ _ h]
  · rfl

theorem read_bit_pos (d : ArithmeticDecoder) :
    d.read_bit.2.pos = if d.bitstream.length ≤ d.pos then d.pos else d.pos + 1 := by
  unfold ArithmeticDecoder.read_bit
  split <;> rfl

/-- Common part of the three synchronization steps: reading one bit keeps
the suffix relation, shifted by one, and stays within bounds. -/
theorem decSync_read (d : ArithmeticDecoder) (k : Nat) (w : List Nat)
    (hsuf : ∀ j : Nat, d.bitstream.getD (d.pos + j) 0 = w.getD (k + j) 0)
    (hpos : d.pos ≤ d.bitstream.length) :
    d.read_bit.1 = w.getD k 0 ∧
    d.read_bit.2.pos ≤ d.read_bit.2.bitstream.length ∧
    (∀ j : Nat, d.read_bit.2.bitstream.getD (d.read_bit.2.pos + j) 0
        = w.getD (k + 1 + j) 0) := by
  have hv : d.read_bit.1 = w.getD k 0 := by
    rw [read_bit_val]
    simpa using hsuf 0
  refine ⟨hv, ?_, ?_⟩
  · rw [read_bit_pos, read_bit_bitstream]
    split <;> omega
  · intro j
    rw [read_bit_pos, read_bit_bitstream]
    split
    · rename_i hfr
      have h1 := hsuf (1 + j)
      rw [List.getD_eq_default _ _ (by omega)]
      rw [List.getD_eq_default _ _ (by omega)] at h1
      rw [show k + (1 + j) = k + 1 + j by omega] at h1
      exact h1
    · have h1 := hsuf (1 + j)
      rw [show d.pos + (1 + j) = d.pos + 1 + j by omega,
        show k + (1 + j) = k + 1 + j by omega] at h1
      exact h1

/-- E1 synchronization: the encoder emits `0` then `p` one-bits; the
decoder doubles `low`, `high`, `code` and absorbs one stream bit. -/
theorem decSync_stepE1 (d : ArithmeticDecoder) (p : Nat) (u : List Nat)
    (h : DecSync d p (0 :: (List.replicate p 1 ++ u))) :
    DecSync { d.read_bit.2 with
              low := d.low * 2
              high := d.high * 2 + 1
              code := d.code * 2 + (d.read_bit.1 : Int) } 0 u := by
  obtain ⟨hsuf, hpos, hcode⟩ := h
  have himm : ((0 : Nat) :: (List.replicate p 1 ++ u))
      = ((0 : Nat) :: List.replicate p 1) ++ u := by simp
  have hsuf' : ∀ j : Nat, d.bitstream.getD (d.pos + j) 0 = u.getD (31 + j) 0 := by
    intro j
    rw [hsuf j, himm, List.getD_append_right _ _ _ _ (by simp; omega)]
    congr 1
    simp
    omega
  obtain ⟨hv, hpos', hsuf''⟩ := decSync_read d 31 u hsuf' hpos
  refine ⟨?_, hpos', ?_⟩
  · intro j
    have := hsuf'' j
    simpa [show 31 + 1 + j = 32 + 0 + j by omega] using this
  · show ((d.code * 2 + (d.read_bit.1 : Int) : Int) : ℚ) = _
    have hd1 : ((0 : Nat) :: (List.replicate p 1 ++ u)).drop (32 + p) = u.drop 31 := by
      rw [himm, drop_append_of_le _ _ _ (by simp; omega)]
      congr 1
      simp
      omega
    rw [phi_E1] at hcode
    rw [hd1] at hcode
    have hstep := bitsVal_drop_step u 31
    rw [hv]
    push_cast [hcode]
    rw [show (31 : Nat) + 1 = 32 from rfl] at hstep
    rw [hstep]
    ring

/-- E2 synchronization: the encoder emits `1` then `p` zero-bits; the
decoder folds out `HALF` and absorbs one stream bit. -/
theorem decSync_stepE2 (d : ArithmeticDecoder) (p : Nat) (u : List Nat)
    (h : DecSync d p (1 :: (List.replicate p 0 ++ u))) :
    DecSync { d.read_bit.2 with
              low := (d.low - HALF) * 2
              high := (d.high - HALF) * 2 + 1
              code := (d.code - (HALF : Int)) * 2 + (d.read_bit.1 : Int) } 0 u := by
  obtain ⟨hsuf, hpos, hcode⟩ := h
  have himm : ((1 : Nat) :: (List.replicate p 0 ++ u))
      = ((1 : Nat) :: List.replicate p 0) ++ u := by simp
  have hsuf' : ∀ j : Nat, d.bitstream.getD (d.pos + j) 0 = u.getD (31 + j) 0 := by
    intro j
    rw [hsuf j, himm, List.getD_append_right _ _ _ _ (by simp; omega)]
    congr 1
    simp
    omega
  obtain ⟨hv, hpos', hsuf''⟩ := decSync_read d 31 u hsuf' hpos
  refine ⟨?_, hpos', ?_⟩
  · intro j
    have := hsuf'' j
    simpa [show 31 + 1 + j = 32 + 0 + j by omega] using this
  · show (((d.code - (HALF : Int)) * 2 + (d.read_bit.1 : Int) : Int) : ℚ) = _
    have hd1 : ((1 : Nat) :: (List.replicate p 0 ++ u)).drop (32 + p) = u.drop 31 := by
      rw [himm, drop_append_of_le _ _ _ (by simp; omega)]
      congr 1
      simp
      omega
    rw [phi_E2] at hcode
    rw [hd1] at hcode
    have hstep := bitsVal_drop_step u 31
    rw [hv]
    have hH : ((HALF : Int) : ℚ) = 2 ^ 31 := by
      rw [HALF_eq]
      norm_num
    push_cast [hcode, hH]
    rw [show (31 : Nat) + 1 = 32 from rfl] at hstep
    rw [hstep]
    ring

/-- E3 synchronization: nothing is emitted yet (`pending` grows); the
decoder folds out `FIRST_QTR` and absorbs one stream bit. -/
theorem decSync_stepE3 (d : ArithmeticDecoder) (p : Nat) (u : List Nat)
    (h : DecSync d p u) :
    DecSync { d.read_bit.2 with
              low := (d.low - FIRST_QTR) * 2
              high := (d.high - FIRST_QTR) * 2 + 1
              code := (d.code - (FIRST_QTR : Int)) * 2 + (d.read_bit.1 : Int) }
      (p + 1) u := by
  obtain ⟨hsuf, hpos, hcode⟩ := h
  obtain ⟨hv, hpos', hsuf''⟩ := decSync_read d (32 + p) u hsuf hpos
  refine ⟨?_, hpos', ?_⟩
  · intro j
    have := hsuf'' j
    simpa [show 32 + p + 1 + j = 32 + (p + 1) + j by omega] using this
  · show (((d.code - (FIRST_QTR : Int)) * 2 + (d.read_bit.1 : Int) : Int) : ℚ) = _
    rw [phi_E3 p u] at hcode
    have hstep := bitsVal_drop_step u (32 + p)
    rw [hv]
    have hQ : ((FIRST_QTR : Int) : ℚ) = 2 ^ 31 / 2 := by
      rw [FIRST_QTR_eq]
      norm_num
    push_cast [hcode, hQ]
    rw [show 32 + p + 1 = 32 + (p + 1) by omega] at hstep
    rw [hstep]
    ring

theorem output_bit_bits (e : ArithmeticEncoder) (b : Nat) :
    (e.output_bit b).output_bits
      = e.output_bits ++ b :: List.replicate e.pending (1 - b) := rfl

theorem output_bit_pending (e : ArithmeticEncoder) (b : Nat) :
    (e.output_bit b).pending = 0 := rfl

/-- The master lemma about one renormalization loop run: it emits a bit
string `w` (appended to the output), every emitted bit is 0 or 1, a
decoder in sync before the loop is in sync after it, and interval bounds
on the frame value transport backwards through the loop. -/
theorem renorm_master : ∀ (fuel : Nat) (e : ArithmeticEncoder) (d : ArithmeticDecoder)
    (rest : List Nat), CoderLH e.low e.high → d.low = e.low → d.high = e.high →
    ∃ w : List Nat,
      (encRenorm fuel e).output_bits = e.output_bits ++ w ∧
      (∀ b ∈ w, b ≤ 1) ∧
      (DecSync d e.pending (w ++ rest) →
        (decRenorm fuel d).low = (encRenorm fuel e).low ∧
        (decRenorm fuel d).high = (encRenorm fuel e).high ∧
        (decRenorm fuel d).bitstream = d.bitstream ∧
        DecSync (decRenorm fuel d) (encRenorm fuel e).pending rest) ∧
      (((encRenorm fuel e).low : ℚ) ≤ phiVal (encRenorm fuel e).pending rest →
        phiVal (encRenorm fuel e).pending rest < ((encRenorm fuel e).high : ℚ) + 1 →
        ((e.low : ℚ) ≤ phiVal e.pending (w ++ rest) ∧
          phiVal e.pending (w ++ rest) < (e.high : ℚ) + 1)) := by
  intro fuel
  induction fuel with
  | zero =>
    intro e d rest hLH hdl hdh
    refine ⟨[], by rw [encRenorm_zero]; simp, by simp, ?_, ?_⟩
    · intro hds
      rw [List.nil_append] at hds
      exact ⟨hdl, hdh, rfl, hds⟩
    · intro h1 h2
      rw [List.nil_append]
      exact ⟨h1, h2⟩
  | succ fuel ih =>
    intro e d rest hLH hdl hdh
    rw [encRenorm_succ, decRenorm_succ]
    by_cases hc1 : e.high < HALF
    · -- E1
      rw [if_pos hc1, if_pos (show d.high < HALF by rw [hdh]; exact hc1)]
      have hLH2 : CoderLH (e.low * 2) (e.high * 2 + 1) := by
        simp only [CoderLH, FULL_RANGE_eq, HALF_eq] at hLH hc1 ⊢
        omega
      obtain ⟨w₂, hbits₂, hble₂, hsync₂, hphi₂⟩ := ih
        { e.output_bit 0 with low := e.low * 2, high := e.high * 2 + 1 }
        { d.read_bit.2 with
          low := d.low * 2
          high := d.high * 2 + 1
          code := d.code * 2 + (d.read_bit.1 : Int) }
        rest hLH2 (by dsimp only; rw [hdl]) (by dsimp only; rw [hdh])
      refine ⟨(0 :: List.replicate e.pending 1) ++ w₂, ?_, ?_, ?_, ?_⟩
      · rw [hbits₂]
        show (e.output_bit 0).output_bits ++ w₂ = _
        rw [output_bit_bits]
        simp
      · intro b hb
        simp only [List.mem_append, List.mem_cons] at hb
        rcases hb with (h | h) | h
        · omega
        · have := List.eq_of_mem_replicate h
          omega
        · exact hble₂ b h
      · intro hds
        have hs : ((0 :: List.replicate e.pending 1) ++ w₂) ++ rest
            = 0 :: (List.replicate e.pending 1 ++ (w₂ ++ rest)) := by simp
        rw [hs] at hds
        have hstep := decSync_stepE1 d e.pending (w₂ ++ rest) hds
        obtain ⟨g1, g2, g3, g4⟩ := hsync₂ hstep
        exact ⟨g1, g2, by rw [g3, read_bit_bitstream], g4⟩
      · intro h1 h2
        obtain ⟨g1, g2⟩ := hphi₂ h1 h2
        dsimp only at g1 g2
        have hs : ((0 :: List.replicate e.pending 1) ++ w₂) ++ rest
            = 0 :: (List.replicate e.pending 1 ++ (w₂ ++ rest)) := by simp
        rw [hs, phi_E1]
        rw [output_bit_pending] at g1 g2
        push_cast at g1 g2 ⊢
        constructor <;> linarith
    · by_cases hc2 : HALF ≤ e.low
      · -- E2
        rw [if_neg hc1, if_pos hc2,
          if_neg (show ¬ d.high < HALF by rw [hdh]; exact hc1),
          if_pos (show HALF ≤ d.low by rw [hdl]; exact hc2)]
        have hLH2 : CoderLH ((e.low - HALF) * 2) ((e.high - HALF) * 2 + 1) := by
          simp only [CoderLH, FULL_RANGE_eq, HALF_eq] at hLH hc2 ⊢
          omega
        obtain ⟨w₂, hbits₂, hble₂, hsync₂, hphi₂⟩ := ih
          { e.output_bit 1 with low := (e.low - HALF) * 2, high := (e.high - HALF) * 2 + 1 }
          { d.read_bit.2 with
            low := (d.low - HALF) * 2
            high := (d.high - HALF) * 2 + 1
            code := (d.code - (HALF : Int)) * 2 + (d.read_bit.1 : Int) }
          rest hLH2 (by dsimp only; rw [hdl]) (by dsimp only; rw [hdh])
        refine ⟨(1 :: List.replicate e.pending 0) ++ w₂, ?_, ?_, ?_, ?_⟩
        · rw [hbits₂]
          show (e.output_bit 1).output_bits ++ w₂ = _
          rw [output_bit_bits]
          simp
        · intro b hb
          simp only [List.mem_append, List.mem_cons] at hb
          rcases hb with (h | h) | h
          · omega
          · have := List.eq_of_mem_replicate h
            omega
          · exact hble₂ b h
        · intro hds
          have hs : ((1 :: List.replicate e.pending 0) ++ w₂) ++ rest
              = 1 :: (List.replicate e.pending 0 ++ (w₂ ++ rest)) := by simp
          rw [hs] at hds
          have hstep := decSync_stepE2 d e.pending (w₂ ++ rest) hds
          obtain ⟨g1, g2, g3, g4⟩ := hsync₂ hstep
          exact ⟨g1, g2, by rw [g3, read_bit_bitstream], g4⟩
        · intro h1 h2
          obtain ⟨g1, g2⟩ := hphi₂ h1 h2
          dsimp only at g1 g2
          have hs : ((1 :: List.replicate e.pending 0) ++ w₂) ++ rest
              = 1 :: (List.replicate e.pending 0 ++ (w₂ ++ rest)) := by simp
          rw [hs, phi_E2]
          rw [output_bit_pending] at g1 g2
          have hc2h : HALF ≤ e.high := le_trans hc2 hLH.1
          push_cast [Nat.cast_sub hc2, Nat.cast_sub hc2h] at g1 g2
          rw [HALF_eq] at g1 g2
          push_cast at g1 g2 ⊢
          constructor <;> linarith
      · by_cases hc3 : FIRST_QTR ≤ e.low ∧ e.high < THIRD_QTR
        · -- E3
          rw [if_neg hc1, if_neg hc2, if_pos hc3,
            if_neg (show ¬ d.high < HALF by rw [hdh]; exact hc1),
            if_neg (show ¬ HALF ≤ d.low by rw [hdl]; exact hc2),
            if_pos (show FIRST_QTR ≤ d.low ∧ d.high < THIRD_QTR by
              rw [hdl, hdh]; exact hc3)]
          have hLH2 : CoderLH ((e.low - FIRST_QTR) * 2) ((e.high - FIRST_QTR) * 2 + 1) := by
            simp only [CoderLH, FULL_RANGE_eq, FIRST_QTR_eq, THIRD_QTR_eq] at hLH hc3 ⊢
            omega
          obtain ⟨w₂, hbits₂, hble₂, hsync₂, hphi₂⟩ := ih
            { e with
              pending := e.pending + 1
              low := (e.low - FIRST_QTR) * 2
              high := (e.high - FIRST_QTR) * 2 + 1 }
            { d.read_bit.2 with
              low := (d.low - FIRST_QTR) * 2
              high := (d.high - FIRST_QTR) * 2 + 1
              code := (d.code - (FIRST_QTR : Int)) * 2 + (d.read_bit.1 : Int) }
            rest hLH2 (by dsimp only; rw [hdl]) (by dsimp only; rw [hdh])
          refine ⟨w₂, ?_, hble₂, ?_, ?_⟩
          · rw [hbits₂]
          · intro hds
            have hstep := decSync_stepE3 d e.pending (w₂ ++ rest) hds
            obtain ⟨g1, g2, g3, g4⟩ := hsync₂ hstep
            exact ⟨g1, g2, by rw [g3, read_bit_bitstream], g4⟩
          · intro h1 h2
            obtain ⟨g1, g2⟩ := hphi₂ h1 h2
            dsimp only at g1 g2
            rw [phi_E3 e.pending (w₂ ++ rest)]
            have hc3h : FIRST_QTR ≤ e.high := le_trans hc3.1 hLH.1
            push_cast [Nat.cast_sub hc3.1, Nat.cast_sub hc3h] at g1 g2
            rw [FIRST_QTR_eq] at g1 g2
            push_cast at g1 g2 ⊢
            constructor <;> linarith
        · -- loop exit
          rw [if_neg hc1, if_neg hc2, if_neg hc3,
            if_neg (show ¬ d.high < HALF by rw [hdh]; exact hc1),
            if_neg (show ¬ HALF ≤ d.low by rw [hdl]; exact hc2),
            if_neg (show ¬ (FIRST_QTR ≤ d.low ∧ d.high < THIRD_QTR) by
              rw [hdl, hdh]; exact hc3)]
          refine ⟨[], by simp, by simp, ?_, ?_⟩
          · intro hds
            rw [List.nil_append] at hds
            exact ⟨hdl, hdh, rfl, hds⟩
          · intro h1 h2
            rw [List.nil_append]
            exact ⟨h1, h2⟩

/-! ## Model bounds: `BoundedFreq` is preserved and caps the total -/

theorem boundedFreq_ensure (t : FrequencyTable) (h : BoundedFreq t) :
    BoundedFreq t.ensure_cum := by
  intro f hf
  rw [ensure_cum_freq] at hf
  exact h f hf

theorem boundedFreq_increment (t : FrequencyTable) (s : Nat) (h : BoundedFreq t) :
    BoundedFreq (t.increment s) := by
  intro f hf
  rw [increment_freq_eq] at hf
  by_cases hcase : (t.freq.set s (t.freq.getD s 0 + 1)).getD s 0 > 1000000
  · rw [if_pos hcase] at hf
    obtain ⟨g, hg, hfg⟩ := List.mem_map.1 hf
    dsimp only at hfg
    rcases List.mem_or_eq_of_mem_set hg with hmem | heq
    · have := h g hmem
      split at hfg <;> omega
    · by_cases hs : s < t.freq.length
      · have hold : t.freq.getD s 0 ≤ 1000000 := by
          apply h
          rw [List.getD_eq_getElem _ _ hs]
          exact List.getElem_mem _
        split at hfg <;> omega
      · have h0 : t.freq.getD s 0 = 0 := List.getD_eq_default _ _ (le_of_not_lt hs)
        split at hfg <;> omega
  · rw [if_neg hcase] at hf
    rcases List.mem_or_eq_of_mem_set hf with hmem | heq
    · exact h f hmem
    · by_cases hs : s < t.freq.length
      · have hset : (t.freq.set s (t.freq.getD s 0 + 1)).getD s 0
            = t.freq.getD s 0 + 1 := by
          rw [List.getD_eq_getElem _ _ (by simpa using hs)]
          simp
        omega
      · have h0 : t.freq.getD s 0 = 0 := List.getD_eq_default _ _ (le_of_not_lt hs)
        omega

/-- With every frequency capped at `10^6`, the total is at most
`511 · 10^6 < FIRST_QTR`. -/
theorem freq_sum_le (t : FrequencyTable) (hlen : t.freq.length = SYMBOL_COUNT)
    (hb : BoundedFreq t) : t.freq.sum ≤ 511000000 := by
  have h := List.sum_le_card_nsmul t.freq 1000000 hb
  rw [smul_eq_mul, hlen] at h
  calc t.freq.sum ≤ SYMBOL_COUNT * 1000000 := h
    _ = 511000000 := by decide

/-- `EncReady` holds for the fresh encoder/model pair `compress_image`
starts from. -/
theorem encReady_init :
    EncReady ArithmeticEncoder.init (FrequencyTable.mk0 SYMBOL_COUNT) := by
  refine ⟨by decide, by decide, tableInv_mk0 _, by simp [FrequencyTable.mk0], ?_⟩
  intro f hf
  have := List.eq_of_mem_replicate hf
  omega

/-- Under `EncReady` the (stale-free) total fits in the current coder
interval. -/
theorem ready_range (e : ArithmeticEncoder) (m : FrequencyTable)
    (h : EncReady e m) : m.freq.sum ≤ e.high - e.low + 1 := by
  obtain ⟨hLH, hdone, -, hlen, hbdd⟩ := h
  have h1 := freq_sum_le m hlen hbdd
  have h2 := renormDone_range hdone hLH
  rw [FIRST_QTR_eq] at h2
  omega

/-- `encode_symbol` preserves the joint coder/model invariant. -/
theorem encode_symbol_ready (e : ArithmeticEncoder) (m : FrequencyTable) (s : Nat)
    (h : EncReady e m) (hs : s < SYMBOL_COUNT) :
    EncReady (e.encode_symbol m s).1 (e.encode_symbol m s).2 := by
  have hrange := ready_range e m h
  obtain ⟨hLH, hdone, hinv, hlen, hbdd⟩ := h
  have hs' : s < m.freq.length := by rw [hlen]; exact hs
  obtain ⟨hLH2, hdone2⟩ := encode_symbol_LH e m s hLH hinv hs' hrange
  refine ⟨hLH2, hdone2, ?_, ?_, ?_⟩
  · rw [encode_symbol_eq]
    exact tableInv_increment _ _ (tableInv_ensure _ hinv)
  · rw [encode_symbol_eq]
    dsimp only
    rw [increment_length, ensure_cum_freq]
    exact hlen
  · rw [encode_symbol_eq]
    exact boundedFreq_increment _ _ (boundedFreq_ensure _ hbdd)

/-- Coder bounds of the narrowed interval, and its inclusion in the
current one, under `EncReady`. -/
theorem narrow_ready (e : ArithmeticEncoder) (m : FrequencyTable) (s : Nat)
    (h : EncReady e m) (hs : s < SYMBOL_COUNT) :
    CoderLH (nLowOf e.low e.high m s) (nHighOf e.low e.high m s) ∧
    e.low ≤ nLowOf e.low e.high m s ∧ nHighOf e.low e.high m s ≤ e.high := by
  have hrange := ready_range e m h
  obtain ⟨hLH, hdone, hinv, hlen, hbdd⟩ := h
  have hs' : s < m.freq.length := by rw [hlen]; exact hs
  have htot : 0 < m.freq.sum :=
    Nat.lt_of_lt_of_le (by omega) (sum_ge_length _ hinv.2.1)
  have hsl : (cumList m.freq).getD s 0 < (cumList m.freq).getD (s + 1) 0 :=
    cumList_strict _ hinv.2.1 hs'
  have hsh : (cumList m.freq).getD (s + 1) 0 ≤ m.freq.sum := by
    have h := cumList_mono m.freq (i := s + 1) (j := m.freq.length) hs' (le_refl _)
    rwa [cumList_last] at h
  unfold nLowOf nHighOf
  rw [ensured_cumAt m hinv, ensured_cumAt m hinv, ensured_total m hinv]
  exact narrow_LH e.low e.high _ _ _ hLH htot hsl hsh hrange

/-! ## The `finish` flush -/

/-- `finish` with `low < FIRST_QTR` emits `0` then `pending + 1` ones. -/
theorem finish_bits_lt (e : ArithmeticEncoder) (h : e.low < FIRST_QTR) :
    e.finish = e.output_bits ++ 0 :: List.replicate (e.pending + 1) 1 := by
  unfold ArithmeticEncoder.finish
  dsimp only
  rw [if_pos h]
  rfl

/-- `finish` with `low ≥ FIRST_QTR` emits `1` then `pending + 1` zeros. -/
theorem finish_bits_ge (e : ArithmeticEncoder) (h : ¬ e.low < FIRST_QTR) :
    e.finish = e.output_bits ++ 1 :: List.replicate (e.pending + 1) 0 := by
  unfold ArithmeticEncoder.finish
  dsimp only
  rw [if_neg h]
  rfl

/-- `encode_symbol` with the narrowed interval written via
`nLowOf`/`nHighOf`. -/
theorem encode_symbol_eqN (e : ArithmeticEncoder) (m : FrequencyTable) (s : Nat) :
    e.encode_symbol m s =
      (encRenorm RENORM_FUEL
        { e with high := nHighOf e.low e.high m s
                 low := nLowOf e.low e.high m s },
       m.ensure_cum.increment s) := encode_symbol_eq e m s

/-- Backward induction over the symbol stream: from any ready state the
eventual flushed output extends the current output by a bit string `w`
whose frame value lies inside the current coder interval — and, when at
least one symbol remains, inside the first symbol's narrowed
subinterval. -/
theorem encode_phi : ∀ (syms : List Nat) (e : ArithmeticEncoder) (m : FrequencyTable),
    EncReady e m → (∀ x ∈ syms, x < SYMBOL_COUNT) →
    ∃ w : List Nat,
      (encodeAll (e, m) syms).1.finish = e.output_bits ++ w ∧
      (∀ b ∈ w, b ≤ 1) ∧
      ((e.low : ℚ) ≤ phiVal e.pending w ∧ phiVal e.pending w < (e.high : ℚ) + 1) ∧
      (∀ s rest, syms = s :: rest →
        ((nLowOf e.low e.high m s : ℚ) ≤ phiVal e.pending w ∧
          phiVal e.pending w < (nHighOf e.low e.high m s : ℚ) + 1)) := by
  intro syms
  induction syms with
  | nil =>
    intro e m hready _
    obtain ⟨hLH, hdone, -, -, -⟩ := hready
    by_cases hlt : e.low < FIRST_QTR
    · refine ⟨0 :: List.replicate (e.pending + 1) 1, finish_bits_lt e hlt, ?_, ?_, ?_⟩
      · intro b hb
        rcases List.mem_cons.1 hb with h | h
        · omega
        · have := List.eq_of_mem_replicate h
          omega
      · rw [phi_finish_zero]
        constructor
        · have h30 : e.low ≤ 2 ^ 30 := by
            rw [FIRST_QTR_eq] at hlt
            omega
          exact_mod_cast h30
        · have h30 : 2 ^ 30 < e.high + 1 := by
            have h2 := hdone.1
            rw [HALF_eq] at h2
            omega
          exact_mod_cast h30
      · intro s rest h
        exact (List.noConfusion h)
    · refine ⟨1 :: List.replicate (e.pending + 1) 0, finish_bits_ge e hlt, ?_, ?_, ?_⟩
      · intro b hb
        rcases List.mem_cons.1 hb with h | h
        · omega
        · have := List.eq_of_mem_replicate h
          omega
      · rw [phi_finish_one]
        constructor
        · have h31 : e.low ≤ 2 ^ 31 := by
            have h2 := hdone.2.1
            rw [HALF_eq] at h2
            omega
          exact_mod_cast h31
        · have h31 : 2 ^ 31 < e.high + 1 := by
            have h2 := hdone.1
            rw [HALF_eq] at h2
            omega
          exact_mod_cast h31
      · intro s rest h
        exact (List.noConfusion h)
  | cons s rest ih =>
    intro e m hready hmem
    have hs : s < SYMBOL_COUNT := hmem s (by simp)
    have hmem2 : ∀ x ∈ rest, x < SYMBOL_COUNT := fun x hx => hmem x (by simp [hx])
    have hready2 := encode_symbol_ready e m s hready hs
    obtain ⟨w₂, hw2f, hw2b, hw2phi, -⟩ :=
      ih (e.encode_symbol m s).1 (e.encode_symbol m s).2 hready2 hmem2
    rw [encode_symbol_eqN] at hw2f hw2phi
    dsimp only at hw2f hw2phi
    have hnr := narrow_ready e m s hready hs
    obtain ⟨w₁, hb1, hble1, -, hphi1⟩ :=
      renorm_master RENORM_FUEL
        { e with high := nHighOf e.low e.high m s, low := nLowOf e.low e.high m s }
        { bitstream := [], pos := 0, low := nLowOf e.low e.high m s
          high := nHighOf e.low e.high m s, code := 0 }
        w₂ hnr.1 rfl rfl
    obtain ⟨g1, g2⟩ := hphi1 hw2phi.1 hw2phi.2
    dsimp only at g1 g2 hb1
    refine ⟨w₁ ++ w₂, ?_, ?_, ?_, ?_⟩
    · show (encodeAll (e.encode_symbol m s) rest).1.finish = _
      rw [encode_symbol_eqN]
      rw [hw2f, hb1]
      try dsimp only
      rw [List.append_assoc]
    · intro b hb
      rcases List.mem_append.1 hb with h | h
      · exact hble1 b h
      · exact hw2b b h
    · have hl : ((e.low : ℚ)) ≤ ((nLowOf e.low e.high m s : Nat) : ℚ) :=
        Nat.cast_le.2 hnr.2.1
      have hh : (((nHighOf e.low e.high m s : Nat)) : ℚ) ≤ (e.high : ℚ) :=
        Nat.cast_le.2 hnr.2.2
      exact ⟨le_trans hl g1, lt_of_lt_of_le g2 (by linarith)⟩
    · intro s' rest' heq
      injection heq with h1 h2
      subst h1
      exact ⟨g1, g2⟩

/-! ## The value computation of `decode_symbol` selects the right slot -/

/-- If `code` lies in the narrowed subinterval `[nlow, nhigh]` of slot
`[cl, ch)`, the value `((code - low + 1) * total - 1) / range` lands back
in `[cl, ch)`. -/
theorem value_in_interval (L H T cl ch codeN : Nat)
    (hT : 0 < T) (hcl : cl < ch) (hch : ch ≤ T)
    (hrange : T ≤ H - L + 1)
    (h1 : L + (H - L + 1) * cl / T ≤ codeN)
    (h2 : codeN ≤ L + (H - L + 1) * ch / T - 1) :
    cl ≤ ((codeN - L + 1) * T - 1) / (H - L + 1) ∧
    ((codeN - L + 1) * T - 1) / (H - L + 1) < ch := by
  obtain ⟨R, hR⟩ : ∃ R, H - L + 1 = R := ⟨_, rfl⟩
  rw [hR] at h1 h2 hrange ⊢
  have hRpos : 0 < R := by omega
  have hLc : L ≤ codeN := le_trans (Nat.le_add_right _ _) h1
  have hq := Nat.div_add_mod (R * cl) T
  have hr : R * cl % T < T := Nat.mod_lt _ hT
  rw [Nat.mul_comm T (R * cl / T)] at hq
  have hmul1 : R * cl / T * T + T ≤ (codeN - L + 1) * T := by
    have hgrow : (R * cl / T + 1) * T ≤ (codeN - L + 1) * T :=
      Nat.mul_le_mul_right _ (by omega)
    rw [Nat.succ_mul] at hgrow
    exact hgrow
  have hlow : R * cl ≤ (codeN - L + 1) * T - 1 := by
    obtain ⟨A, hA⟩ : ∃ A, (codeN - L + 1) * T = A := ⟨_, rfl⟩
    rw [hA] at hmul1 ⊢
    obtain ⟨B, hB⟩ : ∃ B, R * cl / T * T = B := ⟨_, rfl⟩
    rw [hB] at hmul1 hq
    obtain ⟨u, hu⟩ : ∃ u, R * cl % T = u := ⟨_, rfl⟩
    rw [hu] at hq hr
    obtain ⟨M, hM⟩ : ∃ M, R * cl = M := ⟨_, rfl⟩
    rw [hM] at hq ⊢
    omega
  have hlower : cl ≤ ((codeN - L + 1) * T - 1) / R := by
    have h5 : R * cl / R ≤ ((codeN - L + 1) * T - 1) / R :=
      Nat.div_le_div_right hlow
    rwa [Nat.mul_div_cancel_left cl hRpos] at h5
  have hq2 : 1 ≤ R * ch / T := by
    rw [Nat.le_div_iff_mul_le hT]
    calc 1 * T = T := one_mul T
      _ ≤ R := hrange
      _ = R * 1 := (Nat.mul_one R).symm
      _ ≤ R * ch := Nat.mul_le_mul_left R (by omega)
  have h2' : codeN - L + 1 ≤ R * ch / T := by
    obtain ⟨p, hp⟩ : ∃ p, R * ch / T = p := ⟨_, rfl⟩
    rw [hp] at hq2 h2 ⊢
    omega
  have hmul2 : (codeN - L + 1) * T ≤ R * ch / T * T := Nat.mul_le_mul_right T h2'
  have hpT : R * ch / T * T ≤ R * ch := Nat.div_mul_le_self _ _
  have hCpos : 0 < R * ch := Nat.mul_pos hRpos (by omega)
  have hfin : (codeN - L + 1) * T - 1 < ch * R := by
    rw [Nat.mul_comm ch R]
    obtain ⟨D, hD⟩ : ∃ D, R * ch / T * T = D := ⟨_, rfl⟩
    rw [hD] at hmul2 hpT
    obtain ⟨C, hC⟩ : ∃ C, R * ch = C := ⟨_, rfl⟩
    rw [hC] at hpT hCpos ⊢
    obtain ⟨A, hA⟩ : ∃ A, (codeN - L + 1) * T = A := ⟨_, rfl⟩
    rw [hA] at hmul2 ⊢
    omega
  exact ⟨hlower, (Nat.div_lt_iff_lt_mul hRpos).2 hfin⟩

/-- Correctness of the binary search: if `v` lies in
`[cum[s], cum[s+1])` and the table is monotone, the loop returns `s`
(given enough fuel to halve `hi - lo` down to 1). -/
theorem gsfvLoop_exact (c : List Nat) (v : Int) (N : Nat)
    (hmono : ∀ i j : Nat, i ≤ j → j ≤ N → c.getD i 0 ≤ c.getD j 0) :
    ∀ (fuel lo hi s : Nat), lo ≤ s → s < hi → hi ≤ N → hi - lo ≤ fuel + 1 →
      (c.getD s 0 : Int) ≤ v → v < (c.getD (s + 1) 0 : Int) →
      gsfvLoop c v fuel lo hi = s := by
  intro fuel
  induction fuel with
  | zero =>
    intro lo hi s h1 h2 h3 h4 _ _
    rw [gsfvLoop_fuel_zero]
    omega
  | succ f ih =>
    intro lo hi s h1 h2 h3 h4 hv1 hv2
    rw [gsfvLoop_succ]
    by_cases hguard : lo + 1 < hi
    · rw [if_pos hguard]
      by_cases hcmp : (c.getD ((lo + hi) / 2) 0 : Int) > v
      · rw [if_pos hcmp]
        have hsm : s < (lo + hi) / 2 := by
          by_contra hle
          push_neg at hle
          have hms := hmono ((lo + hi) / 2) s hle (by omega)
          have hms' : (c.getD ((lo + hi) / 2) 0 : Int) ≤ (c.getD s 0 : Int) := by
            exact_mod_cast hms
          omega
        exact ih lo ((lo + hi) / 2) s h1 hsm (by omega) (by omega) hv1 hv2
      · rw [if_neg hcmp]
        have hms : (lo + hi) / 2 ≤ s := by
          by_contra hlt
          push_neg at hlt
          have h5 := hmono (s + 1) ((lo + hi) / 2) (by omega) (by omega)
          have h6 : (c.getD (s + 1) 0 : Int) ≤ (c.getD ((lo + hi) / 2) 0 : Int) := by
            exact_mod_cast h5
          push_neg at hcmp
          omega
        exact ih ((lo + hi) / 2) hi s hms h2 h3 (by omega) hv1 hv2
    · rw [if_neg hguard]
      omega

/-! ## The decoder's initial 32-bit load, as a frame value -/

theorem read_bit_code (d : ArithmeticDecoder) : d.read_bit.2.code = d.code := by
  unfold ArithmeticDecoder.read_bit
  split <;> rfl

theorem decInitStep_code (d : ArithmeticDecoder) :
    (decInitStep d).code = d.code * 2 + (d.read_bit.1 : Int) := by
  show d.read_bit.2.code * 2 + (d.read_bit.1 : Int) = _
  rw [read_bit_code]

theorem decInitStep_pos (d : ArithmeticDecoder) :
    (decInitStep d).pos = d.read_bit.2.pos := rfl

/-- After `n` iterations of the `__init__` loop the position is
`min n len` and `code` holds the first `n` stream bits (zero-padded past
the end) as an integer. -/
theorem decInit_state (w : List Nat) : ∀ n : Nat,
    ((List.range n).foldl (fun d _ => decInitStep d)
      { bitstream := w, pos := 0, low := 0, high := FULL_RANGE - 1,
        code := 0 : ArithmeticDecoder }).pos = min n w.length ∧
    ((((List.range n).foldl (fun d _ => decInitStep d)
      { bitstream := w, pos := 0, low := 0, high := FULL_RANGE - 1,
        code := 0 : ArithmeticDecoder }).code : ℚ))
        = 2 ^ n * bitsVal (w.take n) := by
  intro n
  induction n with
  | zero =>
    constructor
    · simp
    · simp [bitsVal_nil]
  | succ n ih =>
    obtain ⟨ih1, ih2⟩ := ih
    rw [List.range_succ, List.foldl_append, List.foldl_cons, List.foldl_nil]
    obtain ⟨D, hD⟩ : ∃ D, (List.range n).foldl (fun d _ => decInitStep d)
        { bitstream := w, pos := 0, low := 0, high := FULL_RANGE - 1,
          code := 0 : ArithmeticDecoder } = D := ⟨_, rfl⟩
    rw [hD] at ih1 ih2 ⊢
    have hbs : D.bitstream = w := by
      rw [← hD]
      exact (decInitFold_proj _ _).2.2
    have hval : D.read_bit.1 = w.getD (min n w.length) 0 := by
      rw [read_bit_val, hbs, ih1]
    have hpos2 : D.read_bit.2.pos
        = if w.length ≤ min n w.length then min n w.length
          else min n w.length + 1 := by
      rw [read_bit_pos, hbs, ih1]
    constructor
    · rw [decInitStep_pos, hpos2]
      split <;> omega
    · rw [decInitStep_code]
      push_cast
      rw [ih2, hval]
      by_cases hn : n < w.length
      · have hmin : min n w.length = n := by omega
        rw [hmin]
        have htake : w.take (n + 1) = w.take n ++ [w.getD n 0] := by
          rw [List.getD_eq_getElem _ _ hn, ← List.concat_eq_append]
          exact (List.take_concat_get w n hn).symm
        rw [htake, bitsVal_append, List.length_take]
        rw [show min n w.length = n from by omega]
        have hb : bitsVal [w.getD n 0] = (w.getD n 0 : ℚ) / 2 := by
          rw [show [w.getD n 0] = w.getD n 0 :: [] from rfl, bitsVal_cons, bitsVal_nil]
          ring
        rw [hb]
        have h2n : (2 : ℚ) ^ n ≠ 0 := pow_ne_zero _ two_ne_zero
        field_simp
        ring
      · have hmin : min n w.length = w.length := by omega
        rw [hmin]
        rw [List.getD_eq_default _ _ (le_refl _)]
        rw [List.take_of_length_le (by omega), List.take_of_length_le (by omega)]
        push_cast
        ring

/-- The freshly initialized decoder is synchronized with a flushed-output
view of the whole stream: `p = 0` and `w` the entire bitstream. -/
theorem start_decSync (w : List Nat) : DecSync (ArithmeticDecoder.start w) 0 w := by
  have hstart : ArithmeticDecoder.start w
      = (List.range 32).foldl (fun d _ => decInitStep d)
        { bitstream := w, pos := 0, low := 0, high := FULL_RANGE - 1,
          code := 0 : ArithmeticDecoder } := rfl
  obtain ⟨h1, h2⟩ := decInit_state w 32
  refine ⟨?_, ?_, ?_⟩
  · intro j
    rw [start_bitstream, hstart, h1]
    rcases le_or_lt 32 w.length with hle | hlt
    · rw [show min 32 w.length = 32 from by omega]
    · rw [show min 32 w.length = w.length from by omega]
      rw [List.getD_eq_default _ _ (by omega), List.getD_eq_default _ _ (by omega)]
  · rw [start_bitstream, hstart, h1]
    omega
  · rw [hstart, h2]
    unfold phiVal
    have hsplit : w = w.take 32 ++ w.drop 32 := (List.take_append_drop 32 w).symm
    rcases le_or_lt 32 w.length with hle | hlt
    · have hlen : (w.take 32).length = 32 := by
        rw [List.length_take]
        omega
      calc (2 : ℚ) ^ 32 * bitsVal (w.take 32)
          = 2 ^ 31 - 2 ^ (31 + 0) + 2 ^ (32 + 0) * bitsVal w - bitsVal (w.drop (32 + 0)) := by
            rw [show (32 + 0) = 32 from rfl, show (31 + 0) = 31 from rfl]
            nth_rewrite 2 [hsplit]
            rw [bitsVal_append, hlen]
            push_cast
            ring_nf
        _ = _ := rfl
    · rw [List.take_of_length_le (by omega), List.drop_eq_nil_of_le (by omega)]
      rw [bitsVal_nil]
      ring

/-! ## Forward simulation of the decoder -/

theorem decodeAll_succ_fst (n : Nat) (d : ArithmeticDecoder) (m : FrequencyTable) :
    (decodeAll (n + 1) d m).1 =
      (d.decode_symbol m).1.1 ::
        (decodeAll n (d.decode_symbol m).1.2 (d.decode_symbol m).2).1 := rfl

/-- Forward simulation: a decoder whose `low`/`high` mirror a ready
encoder's and which is synchronized with the encoder's eventual output
decodes the encoded symbol stream exactly. -/
theorem decode_sim : ∀ (syms : List Nat) (e : ArithmeticEncoder) (m : FrequencyTable)
    (d : ArithmeticDecoder) (w : List Nat),
    EncReady e m → (∀ x ∈ syms, x < SYMBOL_COUNT) →
    d.low = e.low → d.high = e.high →
    (encodeAll (e, m) syms).1.finish = e.output_bits ++ w →
    (∀ b ∈ w, b ≤ 1) →
    DecSync d e.pending w →
    (decodeAll syms.length d m).1 = syms := by
  intro syms
  induction syms with
  | nil =>
    intro e m d w _ _ _ _ _ _ _
    rfl
  | cons s rest ih =>
    intro e m d w hready hmem hdl hdh hfin hwb hsync
    have hs : s < SYMBOL_COUNT := hmem s (by simp)
    have hmem2 : ∀ x ∈ rest, x < SYMBOL_COUNT := fun x hx => hmem x (by simp [hx])
    have hinv : TableInv m := hready.2.2.1
    have hlen : m.freq.length = SYMBOL_COUNT := hready.2.2.2.1
    have hpos : ∀ f ∈ m.freq, 1 ≤ f := hinv.2.1
    have htot : 0 < m.freq.sum :=
      Nat.lt_of_lt_of_le (by rw [hlen]; decide) (sum_ge_length _ hpos)
    have hnl : nLowOf e.low e.high m s
        = e.low + (e.high - e.low + 1) * (cumList m.freq).getD s 0 / m.freq.sum := by
      unfold nLowOf
      rw [ensured_cumAt m hinv, ensured_total m hinv]
    have hnh : nHighOf e.low e.high m s
        = e.low + (e.high - e.low + 1) * (cumList m.freq).getD (s + 1) 0
            / m.freq.sum - 1 := by
      unfold nHighOf
      rw [ensured_cumAt m hinv, ensured_total m hinv]
    obtain ⟨w', hw'f, hw'b, hw'phi, hw'head⟩ := encode_phi (s :: rest) e m hready hmem
    rw [hfin] at hw'f
    have hww : w = w' := List.append_cancel_left hw'f
    have hhead := hw'head s rest rfl
    rw [← hww] at hhead
    obtain ⟨hsuf, hposle, hcode⟩ := hsync
    have hFnn : 0 ≤ bitsVal (w.drop (32 + e.pending)) := bitsVal_nonneg _
    have hFlt : bitsVal (w.drop (32 + e.pending)) < 1 :=
      bitsVal_lt_one _ (fun b hb => hwb b (List.mem_of_mem_drop hb))
    have hcge : (nLowOf e.low e.high m s : Int) ≤ d.code := by
      have h1 : ((nLowOf e.low e.high m s : Int) : ℚ) - 1 < (d.code : ℚ) := by
        rw [hcode]
        push_cast
        linarith [hhead.1]
      have h2 : (nLowOf e.low e.high m s : Int) - 1 < d.code := by exact_mod_cast h1
      omega
    have hcle : d.code ≤ (nHighOf e.low e.high m s : Int) := by
      have h1 : (d.code : ℚ) < ((nHighOf e.low e.high m s : Int) : ℚ) + 1 := by
        rw [hcode]
        push_cast
        linarith [hhead.2]
      have h2 : d.code < (nHighOf e.low e.high m s : Int) + 1 := by exact_mod_cast h1
      omega
    have hc0 : 0 ≤ d.code := le_trans (Int.natCast_nonneg _) hcge
    obtain ⟨codeN, hcodeN⟩ : ∃ n : Nat, d.code = (n : Int) :=
      ⟨d.code.toNat, (Int.toNat_of_nonneg hc0).symm⟩
    rw [hcodeN] at hcge hcle
    have hgeN : nLowOf e.low e.high m s ≤ codeN := by exact_mod_cast hcge
    have hleN : codeN ≤ nHighOf e.low e.high m s := by exact_mod_cast hcle
    have hclch : (cumList m.freq).getD s 0 < (cumList m.freq).getD (s + 1) 0 :=
      cumList_strict _ hpos (by rw [hlen]; exact hs)
    have hchT : (cumList m.freq).getD (s + 1) 0 ≤ m.freq.sum := by
      have h := cumList_mono m.freq (i := s + 1) (j := m.freq.length)
        (by rw [hlen]; exact hs) (le_refl _)
      rwa [cumList_last] at h
    have hrangeT := ready_range e m hready
    have hLc : e.low ≤ codeN :=
      le_trans (by rw [hnl]; exact Nat.le_add_right _ _) hgeN
    obtain ⟨hvlo, hvhi⟩ := value_in_interval e.low e.high m.freq.sum
      ((cumList m.freq).getD s 0) ((cumList m.freq).getD (s + 1) 0) codeN
      htot hclch hchT hrangeT (by rw [← hnl]; exact hgeN) (by rw [← hnh]; exact hleN)
    have hT1 : 1 ≤ (codeN - e.low + 1) * m.freq.sum := Nat.mul_pos (by omega) htot
    have hvalue : ((d.code - (d.low : Int) + 1) * (m.ensure_cum.total : Int) - 1).fdiv
        ((d.high - d.low + 1 : Nat) : Int)
        = ((((codeN - e.low + 1) * m.freq.sum - 1) / (e.high - e.low + 1) : Nat) : Int) := by
      rw [hcodeN, hdl, hdh, ensured_total m hinv]
      rw [show ((codeN : Int) - (e.low : Int) + 1) = ((codeN - e.low + 1 : Nat) : Int) from by
        push_cast [hLc]
        ring]
      rw [show (((codeN - e.low + 1 : Nat) : Int) * ((m.freq.sum : Nat) : Int) - 1)
          = (((codeN - e.low + 1) * m.freq.sum - 1 : Nat) : Int) from by
        push_cast [hT1]
        ring]
      exact (Int.ofNat_fdiv _ _).symm
    have hsc2 : m.ensure_cum.symbol_count = SYMBOL_COUNT := by
      rw [ensure_cum_symbol_count, ← hinv.1, hlen]
    have hcumD : m.ensure_cum.cum.getD [] = cumList m.freq := by
      rw [(ensure_cum_spec m hinv).1]
      rfl
    have hsym : decSymbolOf d m = s := by
      rw [decSymbolOf_eq, hcumD, hsc2, hvalue]
      refine gsfvLoop_exact (cumList m.freq) _ SYMBOL_COUNT
        (fun i j hij hj => cumList_mono m.freq hij (by rw [hlen]; exact hj))
        SYMBOL_COUNT 0 SYMBOL_COUNT s (Nat.zero_le _) hs (le_refl _)
        (by omega) ?_ ?_
      · exact_mod_cast hvlo
      · exact_mod_cast hvhi
    have hready2 := encode_symbol_ready e m s hready hs
    obtain ⟨w₂, hw2f, hw2b, hw2phi, -⟩ :=
      encode_phi rest (e.encode_symbol m s).1 (e.encode_symbol m s).2 hready2 hmem2
    rw [encode_symbol_eqN] at hready2 hw2f hw2phi
    dsimp only at hready2 hw2f hw2phi
    have hnr := narrow_ready e m s hready hs
    obtain ⟨w₁, hb1, hble1, hsyncT, -⟩ :=
      renorm_master RENORM_FUEL
        { e with high := nHighOf e.low e.high m s, low := nLowOf e.low e.high m s }
        { d with high := d.low + (d.high - d.low + 1)
                    * m.ensure_cum.cumAt (s + 1) / m.ensure_cum.total - 1
                 low := d.low + (d.high - d.low + 1)
                    * m.ensure_cum.cumAt s / m.ensure_cum.total }
        w₂ hnr.1
        (by dsimp only; unfold nLowOf; rw [hdl, hdh])
        (by dsimp only; unfold nHighOf; rw [hdl, hdh])
    have hfin2 : (encodeAll (e, m) (s :: rest)).1.finish
        = e.output_bits ++ (w₁ ++ w₂) := by
      show (encodeAll (e.encode_symbol m s) rest).1.finish = _
      rw [encode_symbol_eqN, hw2f, hb1]
      try dsimp only
      rw [List.append_assoc]
    have hw12 : w = w₁ ++ w₂ := List.append_cancel_left (hfin.symm.trans hfin2)
    have hsync1 : DecSync
        { d with high := d.low + (d.high - d.low + 1)
                    * m.ensure_cum.cumAt (s + 1) / m.ensure_cum.total - 1
                 low := d.low + (d.high - d.low + 1)
                    * m.ensure_cum.cumAt s / m.ensure_cum.total }
        e.pending (w₁ ++ w₂) := by
      rw [← hw12]
      exact ⟨hsuf, hposle, hcode⟩
    obtain ⟨g1, g2, g3, g4⟩ := hsyncT hsync1
    have ihres := ih
      (encRenorm RENORM_FUEL
        { e with high := nHighOf e.low e.high m s, low := nLowOf e.low e.high m s })
      (m.ensure_cum.increment s)
      (decRenorm RENORM_FUEL
        { d with high := d.low + (d.high - d.low + 1)
                    * m.ensure_cum.cumAt (s + 1) / m.ensure_cum.total - 1
                 low := d.low + (d.high - d.low + 1)
                    * m.ensure_cum.cumAt s / m.ensure_cum.total })
      w₂ hready2 hmem2 g1 g2 hw2f hw2b g4
    simp only [List.length_cons]
    rw [decodeAll_succ_fst, decode_symbol_eq_sym d m, hsym]
    try dsimp only
    rw [ihres]

theorem decodeAll_succ (n : Nat) (d : ArithmeticDecoder) (m : FrequencyTable) :
    decodeAll (n + 1) d m =
      ((d.decode_symbol m).1.1 ::
        (decodeAll n (d.decode_symbol m).1.2 (d.decode_symbol m).2).1,
       (decodeAll n (d.decode_symbol m).1.2 (d.decode_symbol m).2).2) := rfl

/-- Splitting three decode steps off the front of a run, with the three
symbols exposed as list literals. -/
theorem decodeAll_three (n : Nat) (d : ArithmeticDecoder) (m : FrequencyTable) :
    decodeAll (n + 3) d m =
      ((decodeAll 3 d m).1.getD 0 0 :: (decodeAll 3 d m).1.getD 1 0 ::
         (decodeAll 3 d m).1.getD 2 0 ::
         (decodeAll n (decodeAll 3 d m).2.1 (decodeAll 3 d m).2.2).1,
       (decodeAll n (decodeAll 3 d m).2.1 (decodeAll 3 d m).2.2).2) := rfl

/-- One `decompress_image` loop body in terms of a three-symbol decode
run. -/
theorem decodePixel_parts (st : DecPass) (yx : Nat × Nat) :
    (decodePixel st yx).dec = (decodeAll 3 st.dec st.model).2.1 ∧
    (decodePixel st yx).model = (decodeAll 3 st.dec st.model).2.2 ∧
    (decodePixel st yx).grid
      = setPx st.grid yx.1 yx.2
          ((((decodeAll 3 st.dec st.model).1.getD 0 0 : Int) - 255)
              + (loco_predictor yx.2 yx.1 st.grid).1,
           (((decodeAll 3 st.dec st.model).1.getD 1 0 : Int) - 255)
              + (loco_predictor yx.2 yx.1 st.grid).2.1,
           (((decodeAll 3 st.dec st.model).1.getD 2 0 : Int) - 255)
              + (loco_predictor yx.2 yx.1 st.grid).2.2) :=
  ⟨rfl, rfl, rfl⟩

/-- The `decompress_image` scan factors into one long decode run and the
grid reconstruction fold. -/
theorem decompressRun_factor : ∀ (idxs : List (Nat × Nat)) (st : DecPass),
    (idxs.foldl decodePixel st).dec
        = (decodeAll (3 * idxs.length) st.dec st.model).2.1 ∧
    (idxs.foldl decodePixel st).model
        = (decodeAll (3 * idxs.length) st.dec st.model).2.2 ∧
    (idxs.foldl decodePixel st).grid
        = reconFrom idxs st.grid (decodeAll (3 * idxs.length) st.dec st.model).1 := by
  intro idxs
  induction idxs with
  | nil => intro st; exact ⟨rfl, rfl, rfl⟩
  | cons yx t ih =>
    intro st
    obtain ⟨ih1, ih2, ih3⟩ := ih (decodePixel st yx)
    obtain ⟨hp1, hp2, hp3⟩ := decodePixel_parts st yx
    simp only [List.foldl_cons, List.length_cons, Nat.mul_succ]
    rw [decodeAll_three]
    refine ⟨?_, ?_, ?_⟩
    · rw [ih1, hp1, hp2]
    · rw [ih2, hp1, hp2]
    · rw [ih3, hp1, hp2, hp3]
      simp only [reconFrom, List.getD_cons_zero, List.getD_cons_succ,
        List.drop_succ_cons, List.drop_zero]

/-- Each pixel contributes exactly three symbols to the stream. -/
theorem symsFrom_length (pm : List (List Pixel)) : ∀ (idxs : List (Nat × Nat))
    (pred : List (List Pixel)),
    (symsFrom pm idxs pred).length = 3 * idxs.length := by
  intro idxs
  induction idxs with
  | nil => intro pred; rfl
  | cons yx t ih =>
    intro pred
    rw [symsFrom, List.length_append, ih]
    simp [pixelSyms, pixelRaws, List.length_cons, Nat.mul_succ]
    omega

/-- Every encoded symbol is a clamped residual, hence below 511. -/
theorem symsFrom_lt (pm : List (List Pixel)) : ∀ (idxs : List (Nat × Nat))
    (pred : List (List Pixel)),
    ∀ x ∈ symsFrom pm idxs pred, x < SYMBOL_COUNT := by
  intro idxs
  induction idxs with
  | nil => intro pred x hx; simp [symsFrom] at hx
  | cons yx t ih =>
    intro pred x hx
    rw [symsFrom] at hx
    rcases List.mem_append.1 hx with h | h
    · obtain ⟨d, -, hd⟩ := List.mem_map.1 h
      subst hd
      simp only [clampResidual, MAX_RESIDUAL, SYMBOL_COUNT]
      omega
    · exact ih _ x h

/-- The coder-level round trip: decoding the flushed stream of an
encoding run, starting from fresh coder and model states on both sides,
returns the original symbol stream. -/
theorem coderRoundTrip (syms : List Nat) (hmem : ∀ x ∈ syms, x < SYMBOL_COUNT) :
    (decodeAll syms.length
      (ArithmeticDecoder.start
        ((encodeAll (ArithmeticEncoder.init, FrequencyTable.mk0 SYMBOL_COUNT)
          syms).1.finish))
      (FrequencyTable.mk0 SYMBOL_COUNT)).1 = syms := by
  obtain ⟨w, hwf, hwb, -, -⟩ :=
    encode_phi syms ArithmeticEncoder.init (FrequencyTable.mk0 SYMBOL_COUNT)
      encReady_init hmem
  have hwf2 : (encodeAll (ArithmeticEncoder.init, FrequencyTable.mk0 SYMBOL_COUNT)
      syms).1.finish = w := hwf
  rw [hwf2]
  exact decode_sim syms ArithmeticEncoder.init (FrequencyTable.mk0 SYMBOL_COUNT)
    (ArithmeticDecoder.start w) w encReady_init hmem (start_low w) (start_high w)
    hwf hwb (start_decSync w)

/-! ## The causal-buffer fold writes the image back -/

theorem getD_set_ne {α : Type} (l : List α) (i j : Nat) (v d : α) (h : i ≠ j) :
    (l.set i v).getD j d = l.getD j d := by
  rcases Nat.lt_or_ge j l.length with hj | hj
  · rw [List.getD_eq_getElem _ _ (by simpa using hj), List.getD_eq_getElem _ _ hj]
    exact List.getElem_set_ne h _
  · rw [List.getD_eq_default _ _ (by simpa using hj), List.getD_eq_default _ _ hj]

theorem getD_set_self {α : Type} (l : List α) (i : Nat) (v d : α) (h : i < l.length) :
    (l.set i v).getD i d = v := by
  rw [List.getD_eq_getElem _ _ (by simpa using h)]
  simp

/-- Reading a cell after one cell write: in-range writes land, anything
else is a no-op. -/
theorem getPx_setPx (g : List (List Pixel)) (y0 x0 y x : Nat) (v : Pixel) :
    getPx (setPx g y0 x0 v) y x
      = if y = y0 ∧ x = x0 ∧ y0 < g.length ∧ x0 < (g.getD y0 []).length
        then v else getPx g y x := by
  unfold getPx setPx
  by_cases hy : y = y0
  · subst hy
    by_cases hyb : y < g.length
    · rw [getD_set_self g y _ [] hyb]
      by_cases hx : x = x0
      · subst hx
        by_cases hxb : x < (g.getD y []).length
        · rw [getD_set_self _ x _ _ hxb, if_pos ⟨rfl, rfl, hyb, hxb⟩]
        · rw [List.set_eq_of_length_le (le_of_not_lt hxb),
            if_neg (fun hc => hxb hc.2.2.2)]
      · rw [getD_set_ne _ x0 x _ _ (fun hh => hx hh.symm),
          if_neg (fun hc => hx hc.2.1)]
    · rw [List.set_eq_of_length_le (le_of_not_lt hyb),
        if_neg (fun hc => hyb hc.2.2.1)]
  · rw [getD_set_ne g y0 y _ [] (fun hh => hy hh.symm),
      if_neg (fun hc => hy hc.1)]

theorem setPx_rowlen (g : List (List Pixel)) (y0 x0 : Nat) (v : Pixel) (y : Nat) :
    ((setPx g y0 x0 v).getD y []).length = (g.getD y []).length := by
  unfold setPx
  by_cases hy : y = y0
  · subst hy
    by_cases hyb : y < g.length
    · rw [getD_set_self g _ _ [] hyb, List.length_set]
    · rw [List.set_eq_of_length_le (le_of_not_lt hyb)]
  · rw [getD_set_ne g y0 y _ [] (fun hh => hy hh.symm)]

/-- The dimensions of the causal buffer are invariant under the scan. -/
theorem foldl_predNext_dims (pm : List (List Pixel)) : ∀ (idxs : List (Nat × Nat))
    (pred : List (List Pixel)),
    (idxs.foldl (predNext pm) pred).length = pred.length ∧
    (∀ y, ((idxs.foldl (predNext pm) pred).getD y []).length
        = (pred.getD y []).length) := by
  intro idxs
  induction idxs with
  | nil => intro pred; exact ⟨rfl, fun _ => rfl⟩
  | cons yx t ih =>
    intro pred
    obtain ⟨h1, h2⟩ := ih (predNext pm pred yx)
    simp only [List.foldl_cons]
    constructor
    · rw [h1]
      exact setPx_length _ _ _ _
    · intro y
      rw [h2 y]
      exact setPx_rowlen _ _ _ _ y

/-- Every write of the scan stores `pm[y][x]`, so a cell covered by the
index list ends up holding the image value. -/
theorem foldl_predNext_cell (pm : List (List Pixel)) : ∀ (idxs : List (Nat × Nat))
    (pred : List (List Pixel)) (y x : Nat),
    getPx (idxs.foldl (predNext pm) pred) y x
      = if (y, x) ∈ idxs ∧ y < pred.length ∧ x < (pred.getD y []).length
        then getPx pm y x else getPx pred y x := by
  intro idxs
  induction idxs with
  | nil =>
    intro pred y x
    rw [if_neg (fun hc => (List.not_mem_nil _) hc.1)]
    rfl
  | cons yx t ih =>
    intro pred y x
    simp only [List.foldl_cons]
    rw [ih (predNext pm pred yx) y x]
    have hd1 : (predNext pm pred yx).length = pred.length := setPx_length _ _ _ _
    have hd2 : ((predNext pm pred yx).getD y []).length = (pred.getD y []).length :=
      setPx_rowlen _ _ _ _ y
    rw [hd1, hd2]
    show (if _ then _ else getPx (setPx pred yx.1 yx.2 (getPx pm yx.1 yx.2)) y x) = _
    rw [getPx_setPx]
    by_cases h1 : (y, x) ∈ t ∧ y < pred.length ∧ x < (pred.getD y []).length
    · rw [if_pos h1, if_pos ⟨List.mem_cons_of_mem _ h1.1, h1.2⟩]
    · rw [if_neg h1]
      by_cases h2 : y = yx.1 ∧ x = yx.2 ∧ yx.1 < pred.length
          ∧ yx.2 < (pred.getD yx.1 []).length
      · obtain ⟨hy, hx, hb1, hb2⟩ := h2
        subst hy
        subst hx
        rw [if_pos ⟨rfl, rfl, hb1, hb2⟩, if_pos ⟨List.mem_cons_self _ _, hb1, hb2⟩]
      · rw [if_neg h2, if_neg ?_]
        intro hc
        rcases List.mem_cons.1 hc.1 with heq | hmem
        · have hy : y = yx.1 := congrArg Prod.fst heq
          have hx : x = yx.2 := congrArg Prod.snd heq
          exact h2 ⟨hy, hx, hy ▸ hc.2.1, by rw [← hy, ← hx]; exact hc.2.2⟩
        · exact h1 ⟨hmem, hc.2⟩

theorem mem_pixelIndices (H W y x : Nat) :
    (y, x) ∈ pixelIndices H W ↔ y < H ∧ x < W := by
  simp only [pixelIndices, List.mem_flatMap, List.mem_map, List.mem_range,
    Prod.mk.injEq]
  constructor
  · rintro ⟨a, ha, b, hb, h1, h2⟩
    subst h1
    subst h2
    exact ⟨ha, hb⟩
  · rintro ⟨hy, hx⟩
    exact ⟨y, hy, x, hx, rfl, rfl⟩

theorem zeroGrid_length (H W : Nat) : (zeroGrid H W).length = H := by
  simp [zeroGrid]

theorem zeroGrid_rowlen (H W y : Nat) (hy : y < H) :
    ((zeroGrid H W).getD y []).length = W := by
  unfold zeroGrid
  rw [List.getD_eq_getElem _ _ (by simpa using hy)]
  simp

/-- Extensionality via `getD` under a length equality. -/
theorem list_ext_getD {α : Type} (d : α) (l₁ l₂ : List α) (hl : l₁.length = l₂.length)
    (h : ∀ i, i < l₁.length → l₁.getD i d = l₂.getD i d) : l₁ = l₂ := by
  apply List.ext_getElem hl
  intro i h1 h2
  have hi := h i h1
  rwa [List.getD_eq_getElem _ _ h1, List.getD_eq_getElem _ _ h2] at hi

/-- Scanning all indices of a rectangular image writes the image into the
zero buffer. -/
theorem predFold_eq (pm : List (List Pixel)) (W : Nat) (hrect : Rect pm W) :
    (pixelIndices pm.length W).foldl (predNext pm) (zeroGrid pm.length W) = pm := by
  obtain ⟨hlen, hrow⟩ := foldl_predNext_dims pm (pixelIndices pm.length W)
    (zeroGrid pm.length W)
  have hL : ((pixelIndices pm.length W).foldl (predNext pm)
      (zeroGrid pm.length W)).length = pm.length := by
    rw [hlen, zeroGrid_length]
  apply list_ext_getD ([] : List Pixel) _ _ hL
  intro y hy
  rw [hL] at hy
  have hrowF : (((pixelIndices pm.length W).foldl (predNext pm)
      (zeroGrid pm.length W)).getD y []).length = W := by
    rw [hrow y, zeroGrid_rowlen _ _ _ hy]
  have hrowpm : (pm.getD y []).length = W := by
    rw [List.getD_eq_getElem pm [] hy]
    exact hrect _ (List.getElem_mem _)
  apply list_ext_getD (((0:Int), (0:Int), (0:Int)) : Pixel) _ _ (by rw [hrowF, hrowpm])
  intro x hx
  rw [hrowF] at hx
  show getPx _ y x = getPx pm y x
  have hc : ((y, x) ∈ pixelIndices pm.length W ∧ y < (zeroGrid pm.length W).length
      ∧ x < ((zeroGrid pm.length W).getD y []).length) := by
    refine ⟨(mem_pixelIndices _ _ _ _).2 ⟨hy, hx⟩, ?_, ?_⟩
    · rw [zeroGrid_length]
      exact hy
    · rw [zeroGrid_rowlen _ _ _ hy]
      exact hx
  rw [foldl_predNext_cell, if_pos hc]

/-- As long as every raw residual is in `[0, 510]`, rebuilding the grid
from the clamped symbol stream performs exactly the causal-buffer writes
of the encoder. -/
theorem recon_correct (pm : List (List Pixel)) : ∀ (idxs : List (Nat × Nat))
    (pred : List (List Pixel)),
    (∀ d ∈ rawsFrom pm idxs pred, 0 ≤ d ∧ d ≤ 510) →
    reconFrom idxs pred (symsFrom pm idxs pred) = idxs.foldl (predNext pm) pred := by
  intro idxs
  induction idxs with
  | nil => intro pred _; rfl
  | cons yx t ih =>
    intro pred hb
    have hb1 := hb ((getPx pm yx.1 yx.2).1 - (loco_predictor yx.2 yx.1 pred).1 + 255)
      (by rw [rawsFrom]; exact List.mem_append.2 (Or.inl (by simp [pixelRaws])))
    have hb2 := hb ((getPx pm yx.1 yx.2).2.1 - (loco_predictor yx.2 yx.1 pred).2.1 + 255)
      (by rw [rawsFrom]; exact List.mem_append.2 (Or.inl (by simp [pixelRaws])))
    have hb3 := hb ((getPx pm yx.1 yx.2).2.2 - (loco_predictor yx.2 yx.1 pred).2.2 + 255)
      (by rw [rawsFrom]; exact List.mem_append.2 (Or.inl (by simp [pixelRaws])))
    have hc1 : (clampResidual ((getPx pm yx.1 yx.2).1
        - (loco_predictor yx.2 yx.1 pred).1 + 255) : Int)
        = (getPx pm yx.1 yx.2).1 - (loco_predictor yx.2 yx.1 pred).1 + 255 := by
      simp only [clampResidual, MAX_RESIDUAL]
      omega
    have hc2 : (clampResidual ((getPx pm yx.1 yx.2).2.1
        - (loco_predictor yx.2 yx.1 pred).2.1 + 255) : Int)
        = (getPx pm yx.1 yx.2).2.1 - (loco_predictor yx.2 yx.1 pred).2.1 + 255 := by
      simp only [clampResidual, MAX_RESIDUAL]
      omega
    have hc3 : (clampResidual ((getPx pm yx.1 yx.2).2.2
        - (loco_predictor yx.2 yx.1 pred).2.2 + 255) : Int)
        = (getPx pm yx.1 yx.2).2.2 - (loco_predictor yx.2 yx.1 pred).2.2 + 255 := by
      simp only [clampResidual, MAX_RESIDUAL]
      omega
    have hcanc : ∀ u v : Int, (u - v + 255) - 255 + v = u := by
      intro u v
      ring
    have harg : (((clampResidual ((getPx pm yx.1 yx.2).1
            - (loco_predictor yx.2 yx.1 pred).1 + 255) : Int) - 255)
          + (loco_predictor yx.2 yx.1 pred).1,
        ((clampResidual ((getPx pm yx.1 yx.2).2.1
            - (loco_predictor yx.2 yx.1 pred).2.1 + 255) : Int) - 255)
          + (loco_predictor yx.2 yx.1 pred).2.1,
        ((clampResidual ((getPx pm yx.1 yx.2).2.2
            - (loco_predictor yx.2 yx.1 pred).2.2 + 255) : Int) - 255)
          + (loco_predictor yx.2 yx.1 pred).2.2)
        = getPx pm yx.1 yx.2 := by
      rw [hc1, hc2, hc3, hcanc, hcanc, hcanc]
      rfl
    rw [symsFrom]
    have hsyms : pixelSyms pm pred yx
        = [clampResidual ((getPx pm yx.1 yx.2).1
              - (loco_predictor yx.2 yx.1 pred).1 + 255),
           clampResidual ((getPx pm yx.1 yx.2).2.1
              - (loco_predictor yx.2 yx.1 pred).2.1 + 255),
           clampResidual ((getPx pm yx.1 yx.2).2.2
              - (loco_predictor yx.2 yx.1 pred).2.2 + 255)] := rfl
    rw [hsyms]
    simp only [List.cons_append, List.nil_append]
    simp only [reconFrom, List.getD_cons_zero, List.getD_cons_succ,
      List.drop_succ_cons, List.drop_zero]
    rw [harg]
    simp only [List.foldl_cons]
    exact ih (predNext pm pred yx)
      (fun d hd => hb d (by rw [rawsFrom]; exact List.mem_append.2 (Or.inr hd)))

/-- `compress_image` on a nonempty rectangular grid: the returned stream
is the encoder's flush after the scan. -/
theorem compress_image_eq (pm : List (List Pixel)) (W : Nat) (hne : pm ≠ [])
    (hrect : Rect pm W) :
    compress_image pm = some ((compressRun pm W).enc.finish) := by
  cases pm with
  | nil => exact absurd rfl hne
  | cons row0 rows =>
    have hW0 : row0.length = W := hrect row0 (List.mem_cons_self _ _)
    rw [show compress_image (row0 :: rows)
        = some ((compressRun (row0 :: rows) row0.length).enc.finish) from rfl, hW0]

/-- The encoder state of a full `compress_image` scan, via the stream
factoring. -/
theorem compressRun_enc (pm : List (List Pixel)) (W : Nat) :
    (compressRun pm W).enc
      = (encodeAll (ArithmeticEncoder.init, FrequencyTable.mk0 SYMBOL_COUNT)
          (symTrace pm W)).1 :=
  (compressRun_factor pm (pixelIndices pm.length W)
    { enc := ArithmeticEncoder.init
      model := FrequencyTable.mk0 SYMBOL_COUNT
      pred := zeroGrid pm.length W }).1

/-- `decompress_image`, via the decode-run factoring. -/
theorem decompress_image_factor (bits : List Nat) (W H : Nat) :
    decompress_image bits W H
      = reconFrom (pixelIndices H W) (zeroGrid H W)
          (decodeAll (3 * (pixelIndices H W).length)
            (ArithmeticDecoder.start bits) (FrequencyTable.mk0 SYMBOL_COUNT)).1 := by
  have h := (decompressRun_factor (pixelIndices H W)
    { dec := ArithmeticDecoder.start bits
      model := FrequencyTable.mk0 SYMBOL_COUNT
      grid := zeroGrid H W }).2.2
  dsimp only at h
  unfold decompress_image decompressRun zeroGrid
  unfold zeroGrid at h
  exact h

set_option maxRecDepth 100000 in
set_option maxHeartbeats 2000000 in
/-- C1: for every pixel grid of height `H ≥ 1` and width `W ≥ 1` whose
channel values all lie in `[0, 255]`,
`decompress_image (compress_image grid) W H` returns the original grid,
exactly. -/
theorem C1_round_trip (pm : List (List Pixel)) (W H : Nat)
    (hH : pm.length = H) (hH1 : 1 ≤ H) (hW1 : 1 ≤ W)
    (hrect : Rect pm W) (hin : GridInRange pm) :
    (compress_image pm).map (fun bits => decompress_image bits W H) = some pm := by
  subst hH
  have hne : pm ≠ [] := by
    intro h
    rw [h] at hH1
    simp at hH1
  rw [compress_image_eq pm W hne hrect, Option.map_some']
  refine congrArg some ?_
  rw [decompress_image_factor, compressRun_enc]
  have hcount : 3 * (pixelIndices pm.length W).length = (symTrace pm W).length :=
    (symsFrom_length pm _ _).symm
  rw [hcount]
  have hlt : ∀ x ∈ symTrace pm W, x < SYMBOL_COUNT := symsFrom_lt pm _ _
  rw [coderRoundTrip (symTrace pm W) hlt]
  have hbounds : ∀ d ∈ rawsFrom pm (pixelIndices pm.length W) (zeroGrid pm.length W),
      0 ≤ d ∧ d ≤ 510 :=
    (traces_bounded pm hin (pixelIndices pm.length W) (zeroGrid pm.length W)
      (zeroGrid_in_range _ _)).2
  rw [show symTrace pm W
      = symsFrom pm (pixelIndices pm.length W) (zeroGrid pm.length W) from rfl]
  rw [recon_correct pm _ _ hbounds]
  exact predFold_eq pm W hrect

set_option maxRecDepth 400000 in
/-- Witness for `C1_round_trip`: the 1×1 image `[[(10, 20, 30)]]` is
compressed and decompressed back to itself. -/
theorem C1_round_trip_witness :
    ([[((10:Int), (20:Int), (30:Int))]] : List (List Pixel)).length = 1 ∧
    (1 : Nat) ≤ 1 ∧
    Rect [[((10:Int), (20:Int), (30:Int))]] 1 ∧
    GridInRange [[((10:Int), (20:Int), (30:Int))]] ∧
    (compress_image [[((10:Int), (20:Int), (30:Int))]]).map
        (fun bits => decompress_image bits 1 1)
      = some [[((10:Int), (20:Int), (30:Int))]] :=
  ⟨rfl, le_refl 1, by decide, by decide,
   C1_round_trip [[((10:Int), (20:Int), (30:Int))]] 1 1 rfl (le_refl 1) (le_refl 1)
     (by decide) (by decide)⟩

end Codec
